import Mathlib

/-!
Verification development for the Rs-guided melanoma therapy repository.

The repository computes a spectral-entropy metric Rs on an undirected simple
graph (`src/calculate_Rs.py`), a greedy edge-removal planner
(`clinical_analysis.py`, `find_optimal_targets_greedy`), and a degree-preserving
rewiring optimizer (`src/rego_optimizer.py`, `rego_optimizer`).

Graphs are embedded as a node list plus an edge list of node pairs, mirroring
the networkx graph view the code manipulates (node/edge insertion order is kept
because the code iterates `G.nodes()` / `G.edges()` in that order).  Real
arithmetic of numpy is idealised to `ℝ`; the Moore-Penrose pseudoinverse
`np.linalg.pinv` is embedded as an abstract matrix satisfying the Penrose
equations (no claim below depends on its entries).  Rational-valued parts
(degrees, the structural penalty weights, the Python `int()` truncation of the
budget) are embedded over `ℚ` so that they stay executable.
-/

namespace RsModel

/-- Two edge tuples denote the same undirected edge (networkx edges are
unordered pairs). -/
def sameEdge (a b : ℕ × ℕ) : Prop :=
  (a.1 = b.1 ∧ a.2 = b.2) ∨ (a.1 = b.2 ∧ a.2 = b.1)

instance (a b : ℕ × ℕ) : Decidable (sameEdge a b) := by
  unfold sameEdge; exact inferInstance

/-- An undirected graph as the code sees it: the ordered list of nodes
(`list(G.nodes())`) and the ordered list of edge tuples (`list(G.edges())`). -/
structure Graph where
  nodes : List ℕ
  edges : List (ℕ × ℕ)
deriving DecidableEq

/-- `G.has_edge(u, v)`; membership of the unordered pair. -/
def hasEdge (G : Graph) (u v : ℕ) : Bool :=
  G.edges.any (fun e => decide (sameEdge e (u, v)))

/-- Adding a node (networkx appends unseen nodes in insertion order). -/
def addNode (l : List ℕ) (a : ℕ) : List ℕ :=
  if a ∈ l then l else l ++ [a]

/-- `G.add_edge(u, v)`: a no-op on an already present undirected edge,
otherwise the edge tuple is appended and missing endpoints become nodes. -/
def addEdge (G : Graph) (u v : ℕ) : Graph :=
  if hasEdge G u v then G
  else { nodes := addNode (addNode G.nodes u) v, edges := G.edges ++ [(u, v)] }

/-- `G.remove_edge(u, v)`: drops the undirected edge.  (networkx raises on a
missing edge; every call site in the sources removes a present edge, so the
filter semantics coincides with the source on all reachable states.) -/
def removeEdge (G : Graph) (u v : ℕ) : Graph :=
  { G with edges := G.edges.filter (fun e => !decide (sameEdge e (u, v))) }

/-- Node degree: number of incident edges (graphs are loopless here). -/
def degree (G : Graph) (v : ℕ) : ℕ :=
  G.edges.countP (fun e => decide (e.1 = v ∨ e.2 = v))

/-- Insert into a visited list if absent. -/
def insertNew (a : ℕ) (l : List ℕ) : List ℕ :=
  if a ∈ l then l else a :: l

/-- One breadth step of reachability: add every node adjacent to the set `S`. -/
def expandOnce (E : List (ℕ × ℕ)) (S : List ℕ) : List ℕ :=
  E.foldr (fun e acc =>
    if e.1 ∈ S then insertNew e.2 acc
    else if e.2 ∈ S then insertNew e.1 acc
    else acc) S

/-- Iterated breadth steps. -/
def reachIter (E : List (ℕ × ℕ)) : ℕ → List ℕ → List ℕ
  | 0, S => S
  | n + 1, S => reachIter E n (expandOnce E S)

/-- Nodes reachable from `v`; `|nodes|` breadth steps always saturate. -/
def reachFrom (G : Graph) (v : ℕ) : List ℕ :=
  reachIter G.edges G.nodes.length [v]

/-- `nx.is_connected(G)`: every node is reachable from the first node.
(networkx raises on the null graph; no claim exercises that case and the model
returns `false` there.) -/
def is_connected (G : Graph) : Bool :=
  match G.nodes with
  | [] => false
  | v :: _ => G.nodes.all (fun u => decide (u ∈ reachFrom G v))

/-- Well-formedness of the simple undirected graphs of the data model: no two
entries of the edge list denote the same undirected pair, no self-loops, and
edge endpoints are nodes. -/
def WF (G : Graph) : Prop :=
  List.Pairwise (fun a b => ¬ sameEdge a b) G.edges ∧
  (∀ e ∈ G.edges, e.1 ≠ e.2) ∧
  (∀ e ∈ G.edges, e.1 ∈ G.nodes ∧ e.2 ∈ G.nodes)

instance (G : Graph) : Decidable (WF G) := by
  unfold WF; exact inferInstance

/-! ### Connected components and induced subgraphs (`clinical_analysis.py`) -/

/-- Worker for `nx.connected_components`: scan the nodes in order; each unseen
node contributes the component containing it (listed in node order, matching
`G.subgraph` iteration). -/
def compsGo (G : Graph) : List ℕ → List ℕ → List (List ℕ)
  | [], _ => []
  | v :: rest, seen =>
    if v ∈ seen then compsGo G rest seen
    else
      let c := G.nodes.filter (fun u => decide (u ∈ reachFrom G v))
      c :: compsGo G rest (seen ++ c)

/-- `nx.connected_components(G)` in discovery order. -/
def componentsList (G : Graph) : List (List ℕ) :=
  compsGo G G.nodes []

/-- `max(nx.connected_components(G), key=len)`: Python `max` keeps the first
maximiser in iteration order, which the strict `<` fold below reproduces. -/
def lccNodes (G : Graph) : List ℕ :=
  (componentsList G).foldl (fun best c => if best.length < c.length then c else best) []

/-- `G.subgraph(S)`: the induced subgraph on the node set `S`. -/
def subgraphG (G : Graph) (S : List ℕ) : Graph :=
  { nodes := G.nodes.filter (fun u => decide (u ∈ S)),
    edges := G.edges.filter (fun e => decide (e.1 ∈ S ∧ e.2 ∈ S)) }

/-! ### The Rs metric (`src/calculate_Rs.py`) -/

/-- The four Penrose equations characterising the Moore-Penrose pseudoinverse
that `np.linalg.pinv` computes. -/
def penrose {n : ℕ} (A P : Matrix (Fin n) (Fin n) ℝ) : Prop :=
  A * P * A = A ∧ P * A * P = P ∧
  Matrix.transpose (A * P) = A * P ∧ Matrix.transpose (P * A) = P * A

open Classical in
/-- `np.linalg.pinv`: the (unique, always existing) matrix satisfying the
Penrose equations, embedded abstractly; no claim depends on its entries. -/
noncomputable def pinv {n : ℕ} (A : Matrix (Fin n) (Fin n) ℝ) : Matrix (Fin n) (Fin n) ℝ :=
  if h : ∃ P, penrose A P then h.choose else 0

/-- `nx.laplacian_matrix(G).toarray()`: `L = D - A` with rows/columns indexed
by the node list order. -/
noncomputable def laplacian (G : Graph) :
    Matrix (Fin G.nodes.length) (Fin G.nodes.length) ℝ :=
  Matrix.of fun i j =>
    if i = j then (degree G (G.nodes.get i) : ℝ)
    else if hasEdge G (G.nodes.get i) (G.nodes.get j) then -1 else 0

/-- Matrix entry looked up through the `node_map` integer indices (total, with
a junk value off the index range, which no reachable call hits). -/
def matEntry {n : ℕ} (M : Matrix (Fin n) (Fin n) ℝ) (a b : ℕ) : ℝ :=
  if ha : a < n then if hb : b < n then M ⟨a, ha⟩ ⟨b, hb⟩ else 0 else 0

/-- `calculate_laplacian_pseudoinverse`: raises unless the graph is
connected. -/
noncomputable def calculate_laplacian_pseudoinverse (G : Graph) :
    Except String (Matrix (Fin G.nodes.length) (Fin G.nodes.length) ℝ) :=
  if is_connected G = false then
    .error "Graph must be connected to calculate its Laplacian pseudoinverse."
  else .ok (pinv (laplacian G))

/-- The loop body of `calculate_all_pairs_effective_resistance`:
`Omega_uv = L+_uu + L+_vv - 2*L+_uv`, clamped to `≥ 0`, keyed by edge. -/
noncomputable def edgeResistances (G : Graph)
    (M : Matrix (Fin G.nodes.length) (Fin G.nodes.length) ℝ) :
    List ((ℕ × ℕ) × ℝ) :=
  G.edges.map fun e =>
    (e, max 0 (matEntry M (G.nodes.indexOf e.1) (G.nodes.indexOf e.1) +
               matEntry M (G.nodes.indexOf e.2) (G.nodes.indexOf e.2) -
               2 * matEntry M (G.nodes.indexOf e.1) (G.nodes.indexOf e.2)))

/-- `calculate_all_pairs_effective_resistance(G, L_plus)`: when `L_plus` is
`None` the pseudoinverse (and with it the connectivity check) is computed;
a supplied `L_plus` is used directly with no connectivity check. -/
noncomputable def calculate_all_pairs_effective_resistance (G : Graph)
    (L_plus : Option (Matrix (Fin G.nodes.length) (Fin G.nodes.length) ℝ)) :
    Except String (List ((ℕ × ℕ) × ℝ)) :=
  match L_plus with
  | none =>
    match calculate_laplacian_pseudoinverse G with
    | .error msg => .error msg
    | .ok M => .ok (edgeResistances G M)
  | some M => .ok (edgeResistances G M)

/-- `d_bar = sum(degrees.values()) / N`. -/
def meanDegree (G : Graph) : ℚ :=
  ((G.nodes.map (degree G)).sum : ℚ) / (G.nodes.length : ℚ)

/-- `calculate_structural_penalty_weights`:
`w_uv = 1 - (|d_u - d_bar| + |d_v - d_bar|) / (2 * N * d_bar)` with the
degenerate guards of the source. -/
def calculate_structural_penalty_weights (G : Graph) : List ((ℕ × ℕ) × ℚ) :=
  if G.nodes.length = 0 ∨ G.edges.length = 0 then []
  else if meanDegree G = 0 then G.edges.map (fun e => (e, 1))
  else if 2 * (G.nodes.length : ℚ) * meanDegree G = 0 then G.edges.map (fun e => (e, 1))
  else G.edges.map (fun e =>
    (e, 1 - ((|(degree G e.1 : ℚ) - meanDegree G| + |(degree G e.2 : ℚ) - meanDegree G|) /
      (2 * (G.nodes.length : ℚ) * meanDegree G))))

open Classical in
/-- `calculate_Rs(G)`: connectivity check, zero-edge and zero-total-resistance
degenerate returns, then the entropy sum over edges with the `p_uv > 0`
guard.  The dictionary lookups of the source become association-list
lookups keyed by the same edge tuples. -/
noncomputable def calculate_Rs (G : Graph) : Except String ℝ :=
  if is_connected G = false then .error "Rs calculation requires a connected graph."
  else if G.edges.length = 0 then .ok 0
  else
    match calculate_all_pairs_effective_resistance G none with
    | .error msg => .error msg
    | .ok res =>
      let T : ℝ := (res.map Prod.snd).sum
      if T = 0 then .ok 0
      else
        let probs := res.map fun p => (p.1, p.2 / T)
        let ws := calculate_structural_penalty_weights G
        .ok (G.edges.foldl (fun acc e =>
          match probs.lookup e, ws.lookup e with
          | some p, some w => if p > 0 then acc + p * Real.log (1 / p) * (w : ℝ) else acc
          | _, _ => acc) 0)

/-- The Rs value of a connected graph, with junk value `0` on the error case
(used only to state theorems without binding the `Except` payload). -/
noncomputable def rsValue (G : Graph) : ℝ :=
  match calculate_Rs G with
  | .ok r => r
  | .error _ => 0

/-! ### Spec-side restatement of Rs (for the refinement claim C2 only)

These definitions follow the wording of the specification (§4.1 `rs`), not the
source, and are compared against `calculate_Rs` in the refinement theorem. -/

/-- Spec wording: `Ω_uv = L⁺_uu + L⁺_vv − 2·L⁺_uv`, clamped to `≥ 0`. -/
noncomputable def omegaSpec (G : Graph) (e : ℕ × ℕ) : ℝ :=
  max 0 (matEntry (pinv (laplacian G)) (G.nodes.indexOf e.1) (G.nodes.indexOf e.1) +
         matEntry (pinv (laplacian G)) (G.nodes.indexOf e.2) (G.nodes.indexOf e.2) -
         2 * matEntry (pinv (laplacian G)) (G.nodes.indexOf e.1) (G.nodes.indexOf e.2))

/-- Spec wording: `w_uv = 1 − (|d_u−d̄| + |d_v−d̄|) / (2·N·d̄)`, weight `1.0`
when `d̄ = 0`. -/
def wSpec (G : Graph) (e : ℕ × ℕ) : ℚ :=
  if meanDegree G = 0 then 1
  else 1 - ((|(degree G e.1 : ℚ) - meanDegree G| + |(degree G e.2 : ℚ) - meanDegree G|) /
    (2 * (G.nodes.length : ℚ) * meanDegree G))

open Classical in
/-- Spec wording of `rs(G)` for a connected graph: `0.0` with no edges, `0.0`
when `T = Σ Ω_uv = 0`, otherwise `Σ p_uv·ln(1/p_uv)·w_uv` where a term with
`p_uv = 0` contributes exactly `0` (so `ln` is never applied to `0`). -/
noncomputable def rsSpec (G : Graph) : ℝ :=
  if G.edges.length = 0 then 0
  else
    let T : ℝ := (G.edges.map (omegaSpec G)).sum
    if T = 0 then 0
    else (G.edges.map fun e =>
      let p := omegaSpec G e / T
      if p = 0 then 0 else p * Real.log (1 / p) * ((wSpec G e : ℚ) : ℝ)).sum

/-! ### The REGO rewiring optimizer (`src/rego_optimizer.py`) -/

/-- Loop state of `rego_optimizer`: the working graph, `current_rs`,
`rs_history`, the cached `edges` list (refreshed only on acceptance),
`accepted_swaps`, and the position in the random stream. -/
structure RegoSt where
  G : Graph
  current_rs : ℝ
  rs_history : List ℝ
  edges : List (ℕ × ℕ)
  accepted : ℕ
  tick : ℕ

/-- `random.sample(range(n), 2)`: an arbitrary raw draw is mapped to a pair of
distinct indices below `n` (for `n ≥ 2`); the distribution is irrelevant to
the claims, which hold for every stream. -/
def samplePair (d : ℕ × ℕ) (n : ℕ) : ℕ × ℕ :=
  let i := d.1 % n
  let j0 := d.2 % (n - 1)
  (i, if i ≤ j0 then j0 + 1 else j0)

/-- The bounded retry loop drawing two edges with four distinct endpoints
(`while attempts < 100`); returns the found pair and the advanced stream
position, or `none` when the 100-attempt budget is exhausted. -/
def findPair (draws : ℕ → ℕ × ℕ) (edges : List (ℕ × ℕ)) :
    ℕ → ℕ → Option ((ℕ × ℕ) × (ℕ × ℕ)) × ℕ
  | tick, 0 => (none, tick)
  | tick, fuel + 1 =>
    let ij := samplePair (draws tick) edges.length
    let e1 := edges.getD ij.1 (0, 0)
    let e2 := edges.getD ij.2 (0, 0)
    if e1.1 ≠ e1.2 ∧ e1.1 ≠ e2.1 ∧ e1.1 ≠ e2.2 ∧ e1.2 ≠ e2.1 ∧ e1.2 ≠ e2.2 ∧ e2.1 ≠ e2.2
    then (some (e1, e2), tick + 1)
    else findPair draws edges (tick + 1) fuel

/-- The tentative degree-preserving swap `(u,v),(x,y) → (u,y),(v,x)`. -/
def regoSwap (G : Graph) (u v x y : ℕ) : Graph :=
  addEdge (addEdge (removeEdge (removeEdge G u v) x y) u y) v x

/-- The revert sequence of the source: remove `(u,y),(v,x)`, restore
`(u,v),(x,y)`. -/
def regoRevert (H : Graph) (u v x y : ℕ) : Graph :=
  addEdge (addEdge (removeEdge (removeEdge H u y) v x) u v) x y

open Classical in
/-- One iteration of the `for i in range(n_iter)` loop of `rego_optimizer`. -/
noncomputable def regoStep (draws : ℕ → ℕ × ℕ) (s : RegoSt) : RegoSt :=
  if s.edges.length < 2 then s
  else
    match findPair draws s.edges s.tick 100 with
    | (none, t) => { s with tick := t }
    | (some ((u, v), (x, y)), t) =>
      if hasEdge s.G u y ∨ hasEdge s.G v x then { s with tick := t }
      else
        let Gs := regoSwap s.G u v x y
        if is_connected Gs = false then { s with G := regoRevert Gs u v x y, tick := t }
        else
          match calculate_Rs Gs with
          | .error _ => { s with G := regoRevert Gs u v x y, tick := t }
          | .ok new_rs =>
            if s.current_rs < new_rs then
              { G := Gs, current_rs := new_rs, rs_history := s.rs_history ++ [new_rs],
                edges := Gs.edges, accepted := s.accepted + 1, tick := t }
            else { s with G := regoRevert Gs u v x y, tick := t }

/-- Result of `rego_optimizer`: the optimized graph, `rs_history`, and the
`accepted_swaps` counter. -/
structure RegoOut where
  G : Graph
  hist : List ℝ
  accepted : ℕ

/-- `rego_optimizer(G_initial, n_iter)` with the random source made an
explicit stream of raw draws. -/
noncomputable def rego_optimizer (G_initial : Graph) (draws : ℕ → ℕ × ℕ)
    (n_iter : ℕ) : Except String RegoOut :=
  if is_connected G_initial = false then
    .error "Initial graph must be connected for REGO optimization."
  else
    match calculate_Rs G_initial with
    | .error _ => .ok ⟨G_initial, [], 0⟩
    | .ok current_rs =>
      if G_initial.edges.length < 2 then .ok ⟨G_initial, [current_rs], 0⟩
      else
        let sf := (regoStep draws)^[n_iter]
          ⟨G_initial, current_rs, [current_rs], G_initial.edges, 0, 0⟩
        .ok ⟨sf.G, sf.rs_history, sf.accepted⟩

/-- Projection of `rego_optimizer` out of `Except` (junk on the disconnected
error case, which the theorems exclude). -/
noncomputable def regoResult (G : Graph) (draws : ℕ → ℕ × ℕ) (n_iter : ℕ) : RegoOut :=
  match rego_optimizer G draws n_iter with
  | .ok r => r
  | .error _ => ⟨G, [], 0⟩

/-- Program state with the caller's graph object kept as an explicit separate
component: `copy.deepcopy(G_initial)` initialises `st.G` from `caller`, and
every mutation of the loop acts on `st`, never on `caller`. -/
structure RegoMem where
  caller : Graph
  st : RegoSt

/-- One REGO iteration over the explicit two-object state. -/
noncomputable def regoMemStep (draws : ℕ → ℕ × ℕ) (m : RegoMem) : RegoMem :=
  ⟨m.caller, regoStep draws m.st⟩

/-- `rego_optimizer` threading the caller's graph object through the call:
the returned first component is the caller's graph after the call. -/
noncomputable def rego_optimizer_mem (G_initial : Graph) (draws : ℕ → ℕ × ℕ)
    (n_iter : ℕ) : Graph × Except String RegoOut :=
  if is_connected G_initial = false then
    (G_initial, .error "Initial graph must be connected for REGO optimization.")
  else
    match calculate_Rs G_initial with
    | .error _ => (G_initial, .ok ⟨G_initial, [], 0⟩)
    | .ok current_rs =>
      if G_initial.edges.length < 2 then (G_initial, .ok ⟨G_initial, [current_rs], 0⟩)
      else
        let mf := (regoMemStep draws)^[n_iter]
          ⟨G_initial, ⟨G_initial, current_rs, [current_rs], G_initial.edges, 0, 0⟩⟩
        (mf.caller, .ok ⟨mf.st.G, mf.st.rs_history, mf.st.accepted⟩)

/-! ### The greedy target search (`clinical_analysis.py`) -/

/-- Loop state of `find_optimal_targets_greedy`: working graph, the running
baseline Rs, accumulated targets and Δ-history, and whether a `break` was
taken. -/
structure GreedySt where
  G : Graph
  initial_rs : ℝ
  targets : List (ℕ × ℕ)
  deltas : List ℝ
  stopped : Bool

open Classical in
/-- Evaluation of one removal candidate: remove the edge from a copy, take the
largest connected component if the result is disconnected, return `0.0` when
that component has no edges, the component's Rs otherwise, and `none` on the
(unreachable) `except ValueError: continue` path. -/
noncomputable def rsAfterRemoval (G : Graph) (e : ℕ × ℕ) : Option ℝ :=
  let temp := removeEdge G e.1 e.2
  let lcc := if is_connected temp = true then temp else subgraphG temp (lccNodes temp)
  if lcc.edges.length = 0 then some 0
  else match calculate_Rs lcc with
    | .ok r => some r
    | .error _ => none

/-- The inner candidate scan of one greedy iteration: keep the first strict
maximiser of `delta_rs`.  The accumulator bundles
`(best_edge, max_delta_rs, next_rs)`; `none` is the initial
`best_edge_to_remove = None` / `max_delta_rs = -inf` state. -/
noncomputable def greedyScan (G : Graph) (base_rs : ℝ) :
    List (ℕ × ℕ) → Option ((ℕ × ℕ) × ℝ × ℝ) → Option ((ℕ × ℕ) × ℝ × ℝ)
  | [], acc => acc
  | e :: rest, acc =>
    match rsAfterRemoval G e with
    | none => greedyScan G base_rs rest acc
    | some r =>
      match acc with
      | none => greedyScan G base_rs rest (some (e, r - base_rs, r))
      | some (b, m, nr) =>
        if m < r - base_rs then greedyScan G base_rs rest (some (e, r - base_rs, r))
        else greedyScan G base_rs rest (some (b, m, nr))

open Classical in
/-- One iteration of the `for i in range(iterations)` greedy loop, with the
two `break` exits recorded in the `stopped` flag. -/
noncomputable def greedyStep (s : GreedySt) : GreedySt :=
  if s.stopped then s
  else if s.G.edges.length = 0 then { s with stopped := true }
  else
    match greedyScan s.G s.initial_rs s.G.edges none with
    | none => { s with stopped := true }
    | some (bestE, maxD, nextRs) =>
      { G := removeEdge s.G bestE.1 bestE.2,
        initial_rs := nextRs,
        targets := s.targets ++ [bestE],
        deltas := s.deltas ++ [maxD],
        stopped := s.stopped }

/-- Result of `find_optimal_targets_greedy`. -/
structure GreedyOut where
  targets : List (ℕ × ℕ)
  deltas : List ℝ
  G : Graph

/-- Python `int(q)` on a rational: truncation toward zero. -/
def pyInt (q : ℚ) : ℤ :=
  q.num.tdiv (q.den : ℤ)

/-- `find_optimal_targets_greedy(G, num_targets, budget)`. -/
noncomputable def find_optimal_targets_greedy (G : Graph) (num_targets : ℕ)
    (budget : Option ℚ) : Except String GreedyOut :=
  if is_connected G = false then .error "Input graph must be connected."
  else
    match calculate_Rs G with
    | .error _ => .ok ⟨[], [], G⟩
    | .ok rs0 =>
      let iterations : ℤ :=
        match budget with
        | none => (num_targets : ℤ)
        | some b => min (num_targets : ℤ) (pyInt b)
      let sf := greedyStep^[iterations.toNat] ⟨G, rs0, [], [], false⟩
      .ok ⟨sf.targets, sf.deltas, sf.G⟩

/-- Projection of `find_optimal_targets_greedy` out of `Except` (junk on the
error case, which the theorems exclude). -/
noncomputable def greedyResult (G : Graph) (num_targets : ℕ) (budget : Option ℚ) :
    GreedyOut :=
  match find_optimal_targets_greedy G num_targets budget with
  | .ok r => r
  | .error _ => ⟨[], [], G⟩

/-- Greedy program state with the caller's graph object explicit, mirroring
`current_G = G.copy()`. -/
structure GreedyMem where
  caller : Graph
  st : GreedySt

/-- One greedy iteration over the explicit two-object state. -/
noncomputable def greedyMemStep (m : GreedyMem) : GreedyMem :=
  ⟨m.caller, greedyStep m.st⟩

/-- `find_optimal_targets_greedy` threading the caller's graph object through
the call. -/
noncomputable def find_optimal_targets_greedy_mem (G : Graph) (num_targets : ℕ)
    (budget : Option ℚ) : Graph × Except String GreedyOut :=
  if is_connected G = false then (G, .error "Input graph must be connected.")
  else
    match calculate_Rs G with
    | .error _ => (G, .ok ⟨[], [], G⟩)
    | .ok rs0 =>
      let iterations : ℤ :=
        match budget with
        | none => (num_targets : ℤ)
        | some b => min (num_targets : ℤ) (pyInt b)
      let mf := greedyMemStep^[iterations.toNat] ⟨G, ⟨G, rs0, [], [], false⟩⟩
      (mf.caller, .ok ⟨mf.st.targets, mf.st.deltas, mf.st.G⟩)

/-! ### Basic lemmas about the graph embedding -/

theorem sameEdge_refl (a : ℕ × ℕ) : sameEdge a a :=
  Or.inl ⟨rfl, rfl⟩

theorem sameEdge_symm {a b : ℕ × ℕ} (h : sameEdge a b) : sameEdge b a := by
  rcases h with ⟨h1, h2⟩ | ⟨h1, h2⟩
  · exact Or.inl ⟨h1.symm, h2.symm⟩
  · exact Or.inr ⟨h2.symm, h1.symm⟩

theorem hasEdge_true_iff {G : Graph} {u v : ℕ} :
    hasEdge G u v = true ↔ ∃ e ∈ G.edges, sameEdge e (u, v) := by
  simp [hasEdge, List.any_eq_true]

theorem hasEdge_false_iff {G : Graph} {u v : ℕ} :
    hasEdge G u v = false ↔ ∀ e ∈ G.edges, ¬ sameEdge e (u, v) := by
  rw [← Bool.not_eq_true, hasEdge_true_iff]
  push_neg
  rfl

theorem mem_removeEdge {G : Graph} {u v : ℕ} {e : ℕ × ℕ} :
    e ∈ (removeEdge G u v).edges ↔ e ∈ G.edges ∧ ¬ sameEdge e (u, v) := by
  simp [removeEdge, List.mem_filter]

theorem removeEdge_nodes (G : Graph) (u v : ℕ) : (removeEdge G u v).nodes = G.nodes :=
  rfl

theorem addNode_of_mem {l : List ℕ} {a : ℕ} (h : a ∈ l) : addNode l a = l :=
  if_pos h

theorem addEdge_of_absent {G : Graph} {u v : ℕ} (h : hasEdge G u v = false) :
    (addEdge G u v).edges = G.edges ++ [(u, v)] := by
  unfold addEdge
  rw [h]
  rfl

theorem addEdge_nodes_of_mem {G : Graph} {u v : ℕ} (hu : u ∈ G.nodes)
    (hv : v ∈ G.nodes) : (addEdge G u v).nodes = G.nodes := by
  unfold addEdge
  by_cases h : hasEdge G u v
  · simp [h]
  · simp [h, addNode_of_mem hu, addNode_of_mem hv]

theorem filter_no_match {l : List (ℕ × ℕ)} {u v : ℕ}
    (h : ∀ e ∈ l, ¬ sameEdge e (u, v)) :
    l.filter (fun e => !decide (sameEdge e (u, v))) = l := by
  apply List.filter_eq_self.mpr
  intro e he
  simpa using h e he

/-- In a pairwise-distinct edge list, removing a present edge removes exactly
its one occurrence. -/
theorem perm_remove {l : List (ℕ × ℕ)} {a : ℕ × ℕ}
    (hp : List.Pairwise (fun p q => ¬ sameEdge p q) l) (ha : a ∈ l) :
    l.Perm (a :: l.filter (fun e => !decide (sameEdge e (a.1, a.2)))) := by
  induction l with
  | nil => cases ha
  | cons h t ih =>
    rcases List.pairwise_cons.mp hp with ⟨hh, hpt⟩
    rcases List.mem_cons.mp ha with rfl | hat
    · have hfilter : t.filter (fun e => !decide (sameEdge e (a.1, a.2))) = t := by
        apply filter_no_match
        intro e he hcon
        exact hh e he (sameEdge_symm hcon)
      have hsame : sameEdge a (a.1, a.2) := Or.inl ⟨rfl, rfl⟩
      have hcond : (!decide (sameEdge a (a.1, a.2))) = false := by simp [hsame]
      rw [List.filter_cons, hcond, if_neg Bool.false_ne_true, hfilter]
    · have hkeep : (!decide (sameEdge h (a.1, a.2))) = true := by
        simp only [Bool.not_eq_eq_eq_not, Bool.not_true, decide_eq_false_iff_not]
        intro hcon
        have : sameEdge h a := by
          rcases hcon with ⟨h1, h2⟩ | ⟨h1, h2⟩
          · exact Or.inl ⟨h1, h2⟩
          · exact Or.inr ⟨h1, h2⟩
        exact hh a hat this
      simp only [List.filter_cons, hkeep]
      exact ((ih hpt hat).cons h).trans (List.Perm.swap a h _)

theorem lookup_map_self {β : Type} (f : (ℕ × ℕ) → β) :
    ∀ (l : List (ℕ × ℕ)) (a : ℕ × ℕ), a ∈ l →
      List.lookup a (l.map fun x => (x, f x)) = some (f a) := by
  intro l
  induction l with
  | nil => intro a h; cases h
  | cons x t ih =>
    intro a h
    by_cases hax : a = x
    · subst hax
      simp [List.lookup]
    · have hat : a ∈ t := by
        rcases List.mem_cons.mp h with h1 | h1
        · exact absurd h1 hax
        · exact h1
      have hbeq : (a == x) = false := beq_false_of_ne hax
      simp only [List.map_cons, List.lookup, hbeq]
      exact ih a hat

/-! ### Connectivity depends only on the node list and the edge-membership -/

theorem mem_insertNew {a x : ℕ} {l : List ℕ} :
    x ∈ insertNew a l ↔ x = a ∨ x ∈ l := by
  unfold insertNew
  by_cases h : a ∈ l
  · rw [if_pos h]
    constructor
    · exact Or.inr
    · rintro (rfl | hx)
      · exact h
      · exact hx
  · rw [if_neg h]
    exact List.mem_cons

theorem mem_expandOnce {E : List (ℕ × ℕ)} {S : List ℕ} {x : ℕ} :
    x ∈ expandOnce E S ↔
      x ∈ S ∨ ∃ e ∈ E, (e.1 ∈ S ∧ x = e.2) ∨ (e.1 ∉ S ∧ e.2 ∈ S ∧ x = e.1) := by
  induction E with
  | nil => simp [expandOnce]
  | cons e E ih =>
    unfold expandOnce at ih ⊢
    simp only [List.foldr_cons]
    by_cases h1 : e.1 ∈ S
    · rw [if_pos h1, mem_insertNew, ih]
      constructor
      · rintro (rfl | hS | ⟨f, hf, hc⟩)
        · exact Or.inr ⟨e, List.mem_cons_self e E, Or.inl ⟨h1, rfl⟩⟩
        · exact Or.inl hS
        · exact Or.inr ⟨f, List.mem_cons_of_mem e hf, hc⟩
      · rintro (hS | ⟨f, hf, hc⟩)
        · exact Or.inr (Or.inl hS)
        · rcases List.mem_cons.mp hf with rfl | hfE
          · rcases hc with ⟨_, rfl⟩ | ⟨hcon, _, _⟩
            · exact Or.inl rfl
            · exact absurd h1 hcon
          · exact Or.inr (Or.inr ⟨f, hfE, hc⟩)
    · rw [if_neg h1]
      by_cases h2 : e.2 ∈ S
      · rw [if_pos h2, mem_insertNew, ih]
        constructor
        · rintro (rfl | hS | ⟨f, hf, hc⟩)
          · exact Or.inr ⟨e, List.mem_cons_self e E, Or.inr ⟨h1, h2, rfl⟩⟩
          · exact Or.inl hS
          · exact Or.inr ⟨f, List.mem_cons_of_mem e hf, hc⟩
        · rintro (hS | ⟨f, hf, hc⟩)
          · exact Or.inr (Or.inl hS)
          · rcases List.mem_cons.mp hf with rfl | hfE
            · rcases hc with ⟨hcon, _⟩ | ⟨_, _, rfl⟩
              · exact absurd hcon h1
              · exact Or.inl rfl
            · exact Or.inr (Or.inr ⟨f, hfE, hc⟩)
      · rw [if_neg h2, ih]
        constructor
        · rintro (hS | ⟨f, hf, hc⟩)
          · exact Or.inl hS
          · exact Or.inr ⟨f, List.mem_cons_of_mem e hf, hc⟩
        · rintro (hS | ⟨f, hf, hc⟩)
          · exact Or.inl hS
          · rcases List.mem_cons.mp hf with rfl | hfE
            · rcases hc with ⟨hcon, _⟩ | ⟨_, hcon, _⟩
              · exact absurd hcon h1
              · exact absurd hcon h2
            · exact Or.inr ⟨f, hfE, hc⟩

theorem mem_expandOnce_congr {E₁ E₂ : List (ℕ × ℕ)} {S₁ S₂ : List ℕ}
    (hE : ∀ e, e ∈ E₁ ↔ e ∈ E₂) (hS : ∀ z, z ∈ S₁ ↔ z ∈ S₂) (x : ℕ) :
    x ∈ expandOnce E₁ S₁ ↔ x ∈ expandOnce E₂ S₂ := by
  rw [mem_expandOnce, mem_expandOnce]
  constructor
  · rintro (h | ⟨e, he, ⟨h1, h2⟩ | ⟨h1, h2, h3⟩⟩)
    · exact Or.inl ((hS x).mp h)
    · exact Or.inr ⟨e, (hE e).mp he, Or.inl ⟨(hS e.1).mp h1, h2⟩⟩
    · exact Or.inr ⟨e, (hE e).mp he,
        Or.inr ⟨fun hh => h1 ((hS e.1).mpr hh), (hS e.2).mp h2, h3⟩⟩
  · rintro (h | ⟨e, he, ⟨h1, h2⟩ | ⟨h1, h2, h3⟩⟩)
    · exact Or.inl ((hS x).mpr h)
    · exact Or.inr ⟨e, (hE e).mpr he, Or.inl ⟨(hS e.1).mpr h1, h2⟩⟩
    · exact Or.inr ⟨e, (hE e).mpr he,
        Or.inr ⟨fun hh => h1 ((hS e.1).mp hh), (hS e.2).mpr h2, h3⟩⟩

theorem mem_reachIter_congr {E₁ E₂ : List (ℕ × ℕ)}
    (hE : ∀ e, e ∈ E₁ ↔ e ∈ E₂) :
    ∀ (n : ℕ) {S₁ S₂ : List ℕ}, (∀ z, z ∈ S₁ ↔ z ∈ S₂) →
      ∀ x, x ∈ reachIter E₁ n S₁ ↔ x ∈ reachIter E₂ n S₂ := by
  intro n
  induction n with
  | zero => intro S₁ S₂ hS x; exact hS x
  | succ n ih =>
    intro S₁ S₂ hS x
    exact ih (fun z => mem_expandOnce_congr hE hS z) x

theorem is_connected_congr {G₁ G₂ : Graph} (hn : G₁.nodes = G₂.nodes)
    (he : ∀ e, e ∈ G₁.edges ↔ e ∈ G₂.edges) :
    is_connected G₁ = is_connected G₂ := by
  unfold is_connected reachFrom
  rw [← hn]
  cases hcase : G₁.nodes with
  | nil => rfl
  | cons v rest =>
    rw [Bool.eq_iff_iff]
    simp only [List.all_eq_true, decide_eq_true_eq]
    constructor
    · intro h u hu
      exact (mem_reachIter_congr he _ (fun z => Iff.rfl) u).mp (h u hu)
    · intro h u hu
      exact (mem_reachIter_congr he _ (fun z => Iff.rfl) u).mpr (h u hu)

/-! ### Degree and well-formedness transfer along permutations -/

theorem degree_congr {G₁ G₂ : Graph} (he : G₁.edges.Perm G₂.edges) (v : ℕ) :
    degree G₁ v = degree G₂ v :=
  he.countP_eq _

theorem not_sameEdge_symmetric : Symmetric (fun a b : ℕ × ℕ => ¬ sameEdge a b) :=
  fun _ _ hab hs => hab (sameEdge_symm hs)

theorem WF_congr {G₁ G₂ : Graph} (hn : G₁.nodes = G₂.nodes)
    (he : G₁.edges.Perm G₂.edges) (h : WF G₁) : WF G₂ := by
  obtain ⟨h1, h2, h3⟩ := h
  refine ⟨?_, ?_, ?_⟩
  · exact h1.perm he (fun hab hs => hab (sameEdge_symm hs))
  · intro e heq
    exact h2 e (he.mem_iff.mpr heq)
  · intro e heq
    rw [← hn]
    exact h3 e (he.mem_iff.mpr heq)

/-! ### The degree-preserving swap and its exact revert -/

/-- The hypotheses holding when `rego_optimizer` reaches the tentative swap:
a well-formed graph, the two drawn edges present, four distinct endpoints,
and neither replacement edge already present. -/
structure SwapCtx (G : Graph) (u v x y : ℕ) : Prop where
  wf : WF G
  huv : (u, v) ∈ G.edges
  hxy : (x, y) ∈ G.edges
  d1 : u ≠ v
  d2 : u ≠ x
  d3 : u ≠ y
  d4 : v ≠ x
  d5 : v ≠ y
  d6 : x ≠ y
  huy : hasEdge G u y = false
  hvx : hasEdge G v x = false

/-- The edge list after both removals of the swap. -/
def swapBase (G : Graph) (u v x y : ℕ) : List (ℕ × ℕ) :=
  (removeEdge (removeEdge G u v) x y).edges

theorem mem_swapBase {G : Graph} {u v x y : ℕ} {e : ℕ × ℕ} :
    e ∈ swapBase G u v x y ↔
      e ∈ G.edges ∧ ¬ sameEdge e (u, v) ∧ ¬ sameEdge e (x, y) := by
  unfold swapBase
  rw [mem_removeEdge, mem_removeEdge]
  tauto

theorem swapBase_pairwise {G : Graph} {u v x y : ℕ} (hWF : WF G) :
    List.Pairwise (fun p q => ¬ sameEdge p q) (swapBase G u v x y) := by
  have h1 : (swapBase G u v x y).Sublist G.edges := by
    unfold swapBase removeEdge
    exact (List.filter_sublist _).trans (List.filter_sublist _)
  exact hWF.1.sublist h1

theorem sameEdge_pair_iff {a b c d : ℕ} :
    sameEdge (a, b) (c, d) ↔ (a = c ∧ b = d) ∨ (a = d ∧ b = c) := Iff.rfl

theorem swapCtx_not_uy {G : Graph} {u v x y : ℕ} (h : SwapCtx G u v x y) :
    ∀ e ∈ swapBase G u v x y, ¬ sameEdge e (u, y) := by
  intro e he
  exact (hasEdge_false_iff.mp h.huy) e (mem_swapBase.mp he).1

theorem swapCtx_not_vx {G : Graph} {u v x y : ℕ} (h : SwapCtx G u v x y) :
    ∀ e ∈ swapBase G u v x y, ¬ sameEdge e (v, x) := by
  intro e he
  exact (hasEdge_false_iff.mp h.hvx) e (mem_swapBase.mp he).1

/-- Decomposition of the original edge list: the two drawn edges occur exactly
once each. -/
theorem perm_decomp {G : Graph} {u v x y : ℕ} (h : SwapCtx G u v x y) :
    G.edges.Perm ((u, v) :: (x, y) :: swapBase G u v x y) := by
  have p1 : G.edges.Perm ((u, v) :: (removeEdge G u v).edges) :=
    perm_remove h.wf.1 h.huv
  have hxy1 : (x, y) ∈ (removeEdge G u v).edges := by
    rw [mem_removeEdge]
    refine ⟨h.hxy, ?_⟩
    rw [sameEdge_pair_iff]
    rintro (⟨h1, _⟩ | ⟨h1, _⟩)
    · exact h.d2 h1.symm
    · exact h.d4 h1.symm
  have hp1 : List.Pairwise (fun p q => ¬ sameEdge p q) (removeEdge G u v).edges :=
    h.wf.1.sublist (List.filter_sublist _)
  have p2 : (removeEdge G u v).edges.Perm ((x, y) :: swapBase G u v x y) :=
    perm_remove hp1 hxy1
  exact p1.trans (p2.cons (u, v))

theorem swap_edges {G : Graph} {u v x y : ℕ} (h : SwapCtx G u v x y) :
    (regoSwap G u v x y).edges = (swapBase G u v x y ++ [(u, y)]) ++ [(v, x)] := by
  have huy2 : hasEdge (removeEdge (removeEdge G u v) x y) u y = false := by
    rw [hasEdge_false_iff]
    intro e he
    exact swapCtx_not_uy h e he
  have e3 : (addEdge (removeEdge (removeEdge G u v) x y) u y).edges =
      swapBase G u v x y ++ [(u, y)] := addEdge_of_absent huy2
  have hvx3 : hasEdge (addEdge (removeEdge (removeEdge G u v) x y) u y) v x = false := by
    rw [hasEdge_false_iff, e3]
    intro e he
    rcases List.mem_append.mp he with he1 | he1
    · exact swapCtx_not_vx h e he1
    · rcases List.mem_singleton.mp he1 with rfl
      rw [sameEdge_pair_iff]
      rintro (⟨h1, _⟩ | ⟨h1, _⟩)
      · exact h.d1 h1
      · exact h.d2 h1
  unfold regoSwap
  rw [addEdge_of_absent hvx3, e3]

theorem swap_nodes {G : Graph} {u v x y : ℕ} (h : SwapCtx G u v x y) :
    (regoSwap G u v x y).nodes = G.nodes := by
  have hu : u ∈ G.nodes := (h.wf.2.2 (u, v) h.huv).1
  have hv : v ∈ G.nodes := (h.wf.2.2 (u, v) h.huv).2
  have hx : x ∈ G.nodes := (h.wf.2.2 (x, y) h.hxy).1
  have hy : y ∈ G.nodes := (h.wf.2.2 (x, y) h.hxy).2
  have h3 : (addEdge (removeEdge (removeEdge G u v) x y) u y).nodes = G.nodes :=
    addEdge_nodes_of_mem hu hy
  show (addEdge (addEdge (removeEdge (removeEdge G u v) x y) u y) v x).nodes = G.nodes
  rw [addEdge_nodes_of_mem (by rw [h3]; exact hv) (by rw [h3]; exact hx), h3]

theorem swap_perm {G : Graph} {u v x y : ℕ} (h : SwapCtx G u v x y) :
    (regoSwap G u v x y).edges.Perm ((u, y) :: (v, x) :: swapBase G u v x y) := by
  rw [swap_edges h]
  have s1 : ((swapBase G u v x y ++ [(u, y)]) ++ [(v, x)]).Perm
      ((v, x) :: (swapBase G u v x y ++ [(u, y)])) := List.perm_append_singleton _ _
  have s2 : ((v, x) :: (swapBase G u v x y ++ [(u, y)])).Perm
      ((v, x) :: ((u, y) :: swapBase G u v x y)) :=
    (List.perm_append_singleton _ _).cons _
  have s3 : ((v, x) :: (u, y) :: swapBase G u v x y).Perm
      ((u, y) :: (v, x) :: swapBase G u v x y) := List.Perm.swap _ _ _
  exact (s1.trans s2).trans s3

theorem indicator_swap (w : ℕ) {u v x y : ℕ} (d1 : u ≠ v) (d2 : u ≠ x) (d3 : u ≠ y)
    (d4 : v ≠ x) (d5 : v ≠ y) (d6 : x ≠ y) :
    (if u = w ∨ y = w then (1 : ℕ) else 0) + (if v = w ∨ x = w then (1 : ℕ) else 0) =
      (if u = w ∨ v = w then (1 : ℕ) else 0) + (if x = w ∨ y = w then (1 : ℕ) else 0) := by
  by_cases hu : u = w <;> by_cases hv : v = w <;> by_cases hx : x = w <;>
    by_cases hy : y = w <;> simp_all

theorem countP_pair_cons (w : ℕ) (a b : ℕ) (l : List (ℕ × ℕ)) :
    l.countP (fun e => decide (e.1 = w ∨ e.2 = w)) +
        (if a = w ∨ b = w then (1 : ℕ) else 0) =
      ((a, b) :: l).countP (fun e => decide (e.1 = w ∨ e.2 = w)) := by
  rw [List.countP_cons]
  by_cases hc : a = w ∨ b = w <;> simp [hc]

theorem swap_degree {G : Graph} {u v x y : ℕ} (h : SwapCtx G u v x y) (w : ℕ) :
    degree (regoSwap G u v x y) w = degree G w := by
  unfold degree
  rw [(swap_perm h).countP_eq, (perm_decomp h).countP_eq]
  rw [← countP_pair_cons w u y, ← countP_pair_cons w v x]
  rw [← countP_pair_cons w u v, ← countP_pair_cons w x y]
  have hind := indicator_swap w h.d1 h.d2 h.d3 h.d4 h.d5 h.d6
  linarith [hind]

theorem swap_WF {G : Graph} {u v x y : ℕ} (h : SwapCtx G u v x y) :
    WF (regoSwap G u v x y) := by
  refine ⟨?_, ?_, ?_⟩
  · apply ((swap_perm h).pairwise_iff (fun hab hs => hab (sameEdge_symm hs))).mpr
    rw [List.pairwise_cons, List.pairwise_cons]
    refine ⟨?_, ?_, swapBase_pairwise h.wf⟩
    · intro e he hcon
      rcases List.mem_cons.mp he with rfl | he1
      · rcases sameEdge_pair_iff.mp hcon with ⟨h1, _⟩ | ⟨h1, _⟩
        · exact h.d1 h1
        · exact h.d2 h1
      · exact swapCtx_not_uy h e he1 (sameEdge_symm hcon)
    · intro e he hcon
      exact swapCtx_not_vx h e he (sameEdge_symm hcon)
  · intro e he
    rw [(swap_perm h).mem_iff] at he
    rcases List.mem_cons.mp he with rfl | he1
    · exact h.d3
    rcases List.mem_cons.mp he1 with rfl | he2
    · exact h.d4
    · exact h.wf.2.1 e (mem_swapBase.mp he2).1
  · intro e he
    rw [(swap_perm h).mem_iff] at he
    rw [swap_nodes h]
    have hu : u ∈ G.nodes := (h.wf.2.2 (u, v) h.huv).1
    have hv : v ∈ G.nodes := (h.wf.2.2 (u, v) h.huv).2
    have hx : x ∈ G.nodes := (h.wf.2.2 (x, y) h.hxy).1
    have hy : y ∈ G.nodes := (h.wf.2.2 (x, y) h.hxy).2
    rcases List.mem_cons.mp he with rfl | he1
    · exact ⟨hu, hy⟩
    rcases List.mem_cons.mp he1 with rfl | he2
    · exact ⟨hv, hx⟩
    · exact h.wf.2.2 e (mem_swapBase.mp he2).1

theorem revert_edges {G : Graph} {u v x y : ℕ} (h : SwapCtx G u v x y) :
    (regoRevert (regoSwap G u v x y) u v x y).edges =
      (swapBase G u v x y ++ [(u, v)]) ++ [(x, y)] := by
  have huy_self : sameEdge (u, y) (u, y) := sameEdge_refl _
  have hvx_self : sameEdge (v, x) (v, x) := sameEdge_refl _
  have r1 : (removeEdge (regoSwap G u v x y) u y).edges =
      swapBase G u v x y ++ [(v, x)] := by
    show ((regoSwap G u v x y).edges).filter _ = _
    rw [swap_edges h, List.filter_append, List.filter_append]
    rw [filter_no_match (swapCtx_not_uy h)]
    have hone : ([(u, y)].filter (fun e => !decide (sameEdge e (u, y)))) = [] := by
      simp [huy_self]
    have htwo : ([(v, x)].filter (fun e => !decide (sameEdge e (u, y)))) = [(v, x)] := by
      have : ¬ sameEdge (v, x) (u, y) := by
        rw [sameEdge_pair_iff]
        rintro (⟨h1, _⟩ | ⟨h1, _⟩)
        · exact h.d1 h1.symm
        · exact h.d5 h1
      simp [this]
    rw [hone, htwo, List.append_nil]
  have r2 : (removeEdge (removeEdge (regoSwap G u v x y) u y) v x).edges =
      swapBase G u v x y := by
    show ((removeEdge (regoSwap G u v x y) u y).edges).filter _ = _
    rw [r1, List.filter_append]
    rw [filter_no_match (swapCtx_not_vx h)]
    have hone : ([(v, x)].filter (fun e => !decide (sameEdge e (v, x)))) = [] := by
      simp [hvx_self]
    rw [hone, List.append_nil]
  have huv2 : hasEdge (removeEdge (removeEdge (regoSwap G u v x y) u y) v x) u v = false := by
    rw [hasEdge_false_iff, r2]
    intro e he
    exact (mem_swapBase.mp he).2.1
  have r3 : (addEdge (removeEdge (removeEdge (regoSwap G u v x y) u y) v x) u v).edges =
      swapBase G u v x y ++ [(u, v)] := by
    rw [addEdge_of_absent huv2, r2]
  have hxy3 : hasEdge (addEdge (removeEdge (removeEdge (regoSwap G u v x y) u y) v x) u v)
      x y = false := by
    rw [hasEdge_false_iff, r3]
    intro e he
    rcases List.mem_append.mp he with he1 | he1
    · exact (mem_swapBase.mp he1).2.2
    · rcases List.mem_singleton.mp he1 with rfl
      rw [sameEdge_pair_iff]
      rintro (⟨h1, _⟩ | ⟨h1, _⟩)
      · exact h.d2 h1
      · exact h.d3 h1
  unfold regoRevert
  rw [addEdge_of_absent hxy3, r3]

theorem revert_nodes {G : Graph} {u v x y : ℕ} (h : SwapCtx G u v x y) :
    (regoRevert (regoSwap G u v x y) u v x y).nodes = G.nodes := by
  have hu : u ∈ G.nodes := (h.wf.2.2 (u, v) h.huv).1
  have hv : v ∈ G.nodes := (h.wf.2.2 (u, v) h.huv).2
  have hx : x ∈ G.nodes := (h.wf.2.2 (x, y) h.hxy).1
  have hy : y ∈ G.nodes := (h.wf.2.2 (x, y) h.hxy).2
  have hs := swap_nodes h
  have h2 : (removeEdge (removeEdge (regoSwap G u v x y) u y) v x).nodes = G.nodes := by
    rw [removeEdge_nodes, removeEdge_nodes, hs]
  have h3 : (addEdge (removeEdge (removeEdge (regoSwap G u v x y) u y) v x) u v).nodes =
      G.nodes := by
    rw [addEdge_nodes_of_mem (by rw [h2]; exact hu) (by rw [h2]; exact hv), h2]
  show (addEdge (addEdge (removeEdge (removeEdge (regoSwap G u v x y) u y) v x) u v)
      x y).nodes = G.nodes
  rw [addEdge_nodes_of_mem (by rw [h3]; exact hx) (by rw [h3]; exact hy), h3]

/-- The revert sequence restores the original edge list up to permutation. -/
theorem revert_perm {G : Graph} {u v x y : ℕ} (h : SwapCtx G u v x y) :
    (regoRevert (regoSwap G u v x y) u v x y).edges.Perm G.edges := by
  rw [revert_edges h]
  have s1 : ((swapBase G u v x y ++ [(u, v)]) ++ [(x, y)]).Perm
      ((x, y) :: (swapBase G u v x y ++ [(u, v)])) := List.perm_append_singleton _ _
  have s2 : ((x, y) :: (swapBase G u v x y ++ [(u, v)])).Perm
      ((x, y) :: ((u, v) :: swapBase G u v x y)) :=
    (List.perm_append_singleton _ _).cons _
  have s3 : ((x, y) :: (u, v) :: swapBase G u v x y).Perm
      ((u, v) :: (x, y) :: swapBase G u v x y) := List.Perm.swap _ _ _
  exact ((s1.trans s2).trans s3).trans (perm_decomp h).symm

theorem revert_WF {G : Graph} {u v x y : ℕ} (h : SwapCtx G u v x y) :
    WF (regoRevert (regoSwap G u v x y) u v x y) :=
  WF_congr (revert_nodes h).symm (revert_perm h).symm h.wf

theorem revert_degree {G : Graph} {u v x y : ℕ} (h : SwapCtx G u v x y) (w : ℕ) :
    degree (regoRevert (regoSwap G u v x y) u v x y) w = degree G w :=
  degree_congr (revert_perm h) w

theorem revert_connected {G : Graph} {u v x y : ℕ} (h : SwapCtx G u v x y) :
    is_connected (regoRevert (regoSwap G u v x y) u v x y) = is_connected G :=
  is_connected_congr (revert_nodes h) (fun _ => (revert_perm h).mem_iff)

/-! ### The sampling loop -/

theorem findPair_some {draws : ℕ → ℕ × ℕ} {edges : List (ℕ × ℕ)}
    (hn : 2 ≤ edges.length) :
    ∀ {tick fuel : ℕ} {e1 e2 : ℕ × ℕ} {t : ℕ},
      findPair draws edges tick fuel = (some (e1, e2), t) →
      e1 ∈ edges ∧ e2 ∈ edges ∧ e1.1 ≠ e1.2 ∧ e1.1 ≠ e2.1 ∧ e1.1 ≠ e2.2 ∧
        e1.2 ≠ e2.1 ∧ e1.2 ≠ e2.2 ∧ e2.1 ≠ e2.2 := by
  intro tick fuel
  induction fuel generalizing tick with
  | zero => intro e1 e2 t hcontra; cases hcontra
  | succ fuel ih =>
    intro e1 e2 t hres
    unfold findPair at hres
    set n := edges.length with hnlen
    have hi : (samplePair (draws tick) n).1 < n := by
      unfold samplePair
      exact Nat.mod_lt _ (by omega)
    have hj : (samplePair (draws tick) n).2 < n := by
      unfold samplePair
      have hj0 : (draws tick).2 % (n - 1) < n - 1 := Nat.mod_lt _ (by omega)
      by_cases hle : (draws tick).1 % n ≤ (draws tick).2 % (n - 1) <;> simp [hle] <;> omega
    by_cases hcheck : (edges.getD (samplePair (draws tick) n).1 (0, 0)).1 ≠
        (edges.getD (samplePair (draws tick) n).1 (0, 0)).2 ∧
        (edges.getD (samplePair (draws tick) n).1 (0, 0)).1 ≠
        (edges.getD (samplePair (draws tick) n).2 (0, 0)).1 ∧
        (edges.getD (samplePair (draws tick) n).1 (0, 0)).1 ≠
        (edges.getD (samplePair (draws tick) n).2 (0, 0)).2 ∧
        (edges.getD (samplePair (draws tick) n).1 (0, 0)).2 ≠
        (edges.getD (samplePair (draws tick) n).2 (0, 0)).1 ∧
        (edges.getD (samplePair (draws tick) n).1 (0, 0)).2 ≠
        (edges.getD (samplePair (draws tick) n).2 (0, 0)).2 ∧
        (edges.getD (samplePair (draws tick) n).2 (0, 0)).1 ≠
        (edges.getD (samplePair (draws tick) n).2 (0, 0)).2
    · rw [if_pos hcheck] at hres
      have hfst := congrArg Prod.fst hres
      dsimp only at hfst
      rw [Option.some_inj, Prod.mk.injEq] at hfst
      obtain ⟨hE1, hE2⟩ := hfst
      subst hE1
      subst hE2
      obtain ⟨c1, c2, c3, c4, c5, c6⟩ := hcheck
      refine ⟨?_, ?_, c1, c2, c3, c4, c5, c6⟩
      · rw [List.getD_eq_getElem?_getD, List.getElem?_eq_getElem hi]
        exact List.getElem_mem _
      · rw [List.getD_eq_getElem?_getD, List.getElem?_eq_getElem hj]
        exact List.getElem_mem _
    · rw [if_neg hcheck] at hres
      exact ih hres

/-! ### Invariants of the REGO loop -/

/-- Graph-side invariant of the REGO loop state: the working graph stays
well-formed and connected, keeps the node list and every degree of the input
graph, and the cached edge list only holds current edges. -/
structure RegoGraphInv (G0 : Graph) (s : RegoSt) : Prop where
  wf : WF s.G
  conn : is_connected s.G = true
  nodes : s.G.nodes = G0.nodes
  deg : ∀ w, degree s.G w = degree G0 w
  cache : ∀ e ∈ s.edges, e ∈ s.G.edges

/-- History-side invariant of the REGO loop state: `rs_history` is a strictly
increasing chain starting at the seed value, ending at `current_rs`, with one
entry per accepted swap plus the seed. -/
structure RegoHistInv (r0 : ℝ) (s : RegoSt) : Prop where
  chain : List.Chain' (· < ·) s.rs_history
  head : s.rs_history.head? = some r0
  last : s.rs_history.getLast? = some s.current_rs
  len : s.rs_history.length = s.accepted + 1

theorem head?_append_singleton {α : Type} {l : List α} (h : l ≠ []) (a : α) :
    (l ++ [a]).head? = l.head? := by
  cases l with
  | nil => exact absurd rfl h
  | cons b t => rfl

/-- The swap context holds whenever the REGO step reaches the tentative
swap. -/
theorem regoStep_ctx {G0 : Graph} {draws : ℕ → ℕ × ℕ} {s : RegoSt}
    (hg : RegoGraphInv G0 s) (hlen : ¬ s.edges.length < 2) {u v x y : ℕ} {t : ℕ}
    (hfp : findPair draws s.edges s.tick 100 = (some ((u, v), (x, y)), t))
    (hne : ¬ (hasEdge s.G u y = true ∨ hasEdge s.G v x = true)) :
    SwapCtx s.G u v x y := by
  obtain ⟨hm1, hm2, c1, c2, c3, c4, c5, c6⟩ := findPair_some (by omega) hfp
  push_neg at hne
  exact ⟨hg.wf, hg.cache _ hm1, hg.cache _ hm2, c1, c2, c3, c4, c5, c6,
    Bool.not_eq_true _ ▸ hne.1, Bool.not_eq_true _ ▸ hne.2⟩

theorem regoStep_inv {G0 : Graph} {r0 : ℝ} {draws : ℕ → ℕ × ℕ} {s : RegoSt}
    (hg : RegoGraphInv G0 s) (hh : RegoHistInv r0 s) :
    RegoGraphInv G0 (regoStep draws s) ∧ RegoHistInv r0 (regoStep draws s) := by
  unfold regoStep
  by_cases hlen : s.edges.length < 2
  · rw [if_pos hlen]
    exact ⟨hg, hh⟩
  rw [if_neg hlen]
  rcases hfp : findPair draws s.edges s.tick 100 with ⟨opt, t⟩
  cases opt with
  | none =>
    refine ⟨⟨hg.wf, hg.conn, hg.nodes, hg.deg, hg.cache⟩,
      ⟨hh.chain, hh.head, hh.last, hh.len⟩⟩
  | some pq =>
    rcases pq with ⟨⟨u, v⟩, ⟨x, y⟩⟩
    dsimp only
    by_cases hne : hasEdge s.G u y = true ∨ hasEdge s.G v x = true
    · rw [if_pos hne]
      exact ⟨⟨hg.wf, hg.conn, hg.nodes, hg.deg, hg.cache⟩,
        ⟨hh.chain, hh.head, hh.last, hh.len⟩⟩
    rw [if_neg hne]
    have hctx : SwapCtx s.G u v x y := regoStep_ctx hg hlen hfp hne
    have hrevG : RegoGraphInv G0
        { s with G := regoRevert (regoSwap s.G u v x y) u v x y, tick := t } := by
      refine ⟨revert_WF hctx, ?_, (revert_nodes hctx).trans hg.nodes, ?_, ?_⟩
      · exact (revert_connected hctx).trans hg.conn
      · intro w
        exact (revert_degree hctx w).trans (hg.deg w)
      · intro e he
        exact (revert_perm hctx).mem_iff.mpr (hg.cache e he)
    have hrevH : RegoHistInv r0
        { s with G := regoRevert (regoSwap s.G u v x y) u v x y, tick := t } :=
      ⟨hh.chain, hh.head, hh.last, hh.len⟩
    by_cases hconn2 : is_connected (regoSwap s.G u v x y) = false
    · rw [if_pos hconn2]
      exact ⟨hrevG, hrevH⟩
    rw [if_neg hconn2]
    rcases hrs : calculate_Rs (regoSwap s.G u v x y) with msg | new_rs
    · exact ⟨hrevG, hrevH⟩
    dsimp only
    by_cases hacc : s.current_rs < new_rs
    · rw [if_pos hacc]
      constructor
      · refine ⟨swap_WF hctx, ?_, (swap_nodes hctx).trans hg.nodes, ?_, ?_⟩
        · exact Bool.not_eq_false _ ▸ hconn2
        · intro w
          exact (swap_degree hctx w).trans (hg.deg w)
        · intro e he
          exact he
      · have hnonempty : s.rs_history ≠ [] := by
          intro hcon
          have hlen1 := hh.len
          rw [hcon] at hlen1
          simp at hlen1
        refine ⟨?_, ?_, ?_, ?_⟩
        · rw [List.chain'_append]
          refine ⟨hh.chain, List.chain'_singleton _, ?_⟩
          intro a ha b hb
          rw [hh.last, Option.mem_def, Option.some_inj] at ha
          rw [List.head?_cons, Option.mem_def, Option.some_inj] at hb
          rw [ha, hb] at hacc
          exact hacc
        · rw [head?_append_singleton hnonempty, hh.head]
        · exact List.getLast?_concat _
        · rw [List.length_append, hh.len, List.length_singleton]
    · rw [if_neg hacc]
      exact ⟨hrevG, hrevH⟩

theorem regoStep_iterate_inv {G0 : Graph} {r0 : ℝ} {draws : ℕ → ℕ × ℕ}
    {s : RegoSt} (hg : RegoGraphInv G0 s) (hh : RegoHistInv r0 s) (n : ℕ) :
    RegoGraphInv G0 ((regoStep draws)^[n] s) ∧ RegoHistInv r0 ((regoStep draws)^[n] s) := by
  induction n with
  | zero => exact ⟨hg, hh⟩
  | succ n ih =>
    rw [Function.iterate_succ_apply']
    exact regoStep_inv ih.1 ih.2

/-! ### `calculate_Rs` on connected graphs -/

theorem calculate_Rs_isOk {G : Graph} (h : is_connected G = true) :
    ∃ r, calculate_Rs G = Except.ok r := by
  unfold calculate_Rs
  rw [h, if_neg (by simp)]
  by_cases hlen : G.edges.length = 0
  · rw [if_pos hlen]
    exact ⟨0, rfl⟩
  · rw [if_neg hlen]
    unfold calculate_all_pairs_effective_resistance calculate_laplacian_pseudoinverse
    rw [h, if_neg (by simp)]
    dsimp only
    by_cases hT : ((edgeResistances G (pinv (laplacian G))).map Prod.snd).sum = 0
    · rw [if_pos hT]
      exact ⟨0, rfl⟩
    · rw [if_neg hT]
      exact ⟨_, rfl⟩

theorem calculate_Rs_eq_rsValue {G : Graph} (h : is_connected G = true) :
    calculate_Rs G = Except.ok (rsValue G) := by
  obtain ⟨r, hr⟩ := calculate_Rs_isOk h
  unfold rsValue
  rw [hr]

/-! ### Shape of the optimizer under a connected input -/

theorem rego_optimizer_eq {G : Graph} {draws : ℕ → ℕ × ℕ} {n : ℕ}
    (h : is_connected G = true) :
    rego_optimizer G draws n = Except.ok (
      if G.edges.length < 2 then ⟨G, [rsValue G], 0⟩
      else ((fun sf => RegoOut.mk sf.G sf.rs_history sf.accepted)
        ((regoStep draws)^[n] ⟨G, rsValue G, [rsValue G], G.edges, 0, 0⟩))) := by
  unfold rego_optimizer
  rw [h, if_neg (by simp), calculate_Rs_eq_rsValue h]
  dsimp only
  by_cases hlen : G.edges.length < 2
  · rw [if_pos hlen, if_pos hlen]
  · rw [if_neg hlen, if_neg hlen]

theorem regoResult_eq {G : Graph} {draws : ℕ → ℕ × ℕ} {n : ℕ}
    (h : is_connected G = true) :
    regoResult G draws n =
      if G.edges.length < 2 then ⟨G, [rsValue G], 0⟩
      else ((fun sf => RegoOut.mk sf.G sf.rs_history sf.accepted)
        ((regoStep draws)^[n] ⟨G, rsValue G, [rsValue G], G.edges, 0, 0⟩)) := by
  unfold regoResult
  rw [rego_optimizer_eq h]

/-- History preservation needs no graph-side hypothesis: every branch either
leaves the history untouched or appends a strictly larger accepted value. -/
theorem regoStep_hist_inv {r0 : ℝ} {draws : ℕ → ℕ × ℕ} {s : RegoSt}
    (hh : RegoHistInv r0 s) : RegoHistInv r0 (regoStep draws s) := by
  unfold regoStep
  by_cases hlen : s.edges.length < 2
  · rw [if_pos hlen]
    exact hh
  rw [if_neg hlen]
  rcases hfp : findPair draws s.edges s.tick 100 with ⟨opt, t⟩
  cases opt with
  | none => exact ⟨hh.chain, hh.head, hh.last, hh.len⟩
  | some pq =>
    rcases pq with ⟨⟨u, v⟩, ⟨x, y⟩⟩
    dsimp only
    by_cases hne : hasEdge s.G u y = true ∨ hasEdge s.G v x = true
    · rw [if_pos hne]
      exact ⟨hh.chain, hh.head, hh.last, hh.len⟩
    rw [if_neg hne]
    by_cases hconn2 : is_connected (regoSwap s.G u v x y) = false
    · rw [if_pos hconn2]
      exact ⟨hh.chain, hh.head, hh.last, hh.len⟩
    rw [if_neg hconn2]
    rcases hrs : calculate_Rs (regoSwap s.G u v x y) with msg | new_rs
    · exact ⟨hh.chain, hh.head, hh.last, hh.len⟩
    dsimp only
    by_cases hacc : s.current_rs < new_rs
    · rw [if_pos hacc]
      have hnonempty : s.rs_history ≠ [] := by
        intro hcon
        have hlen1 := hh.len
        rw [hcon] at hlen1
        simp at hlen1
      refine ⟨?_, ?_, ?_, ?_⟩
      · rw [List.chain'_append]
        refine ⟨hh.chain, List.chain'_singleton _, ?_⟩
        intro a ha b hb
        rw [hh.last, Option.mem_def, Option.some_inj] at ha
        rw [List.head?_cons, Option.mem_def, Option.some_inj] at hb
        rw [ha, hb] at hacc
        exact hacc
      · rw [head?_append_singleton hnonempty, hh.head]
      · exact List.getLast?_concat _
      · rw [List.length_append, hh.len, List.length_singleton]
    · rw [if_neg hacc]
      exact ⟨hh.chain, hh.head, hh.last, hh.len⟩

theorem regoStep_hist_iterate {r0 : ℝ} (draws : ℕ → ℕ × ℕ) {s : RegoSt}
    (hh : RegoHistInv r0 s) (n : ℕ) : RegoHistInv r0 ((regoStep draws)^[n] s) := by
  induction n with
  | zero => exact hh
  | succ n ih =>
    rw [Function.iterate_succ_apply']
    exact regoStep_hist_inv ih

/-! ### Invariants of the greedy loop -/

/-- Invariant of the greedy loop state: the working graph keeps the node list,
its edge set is the input edge set minus exactly the accumulated targets, the
Δ-history has one entry per target, and the targets are pairwise-distinct
edges of the input graph. -/
structure GreedyInv (G0 : Graph) (s : GreedySt) : Prop where
  nodes : s.G.nodes = G0.nodes
  edges : ∀ e, e ∈ s.G.edges ↔ (e ∈ G0.edges ∧ ∀ t ∈ s.targets, ¬ sameEdge e t)
  len : s.deltas.length = s.targets.length
  nodup : List.Pairwise (fun a b => ¬ sameEdge a b) s.targets
  sub : ∀ t ∈ s.targets, t ∈ G0.edges

/-- A successful scan result was either scanned from the candidate list or
carried in from the accumulator. -/
theorem greedyScan_mem {G : Graph} {base : ℝ} :
    ∀ {l : List (ℕ × ℕ)} {acc : Option ((ℕ × ℕ) × ℝ × ℝ)} {e : ℕ × ℕ} {d r : ℝ},
      greedyScan G base l acc = some (e, d, r) →
      e ∈ l ∨ ∃ d0 r0, acc = some (e, d0, r0) := by
  intro l
  induction l with
  | nil =>
    intro acc e d r h
    exact Or.inr ⟨d, r, h⟩
  | cons c rest ih =>
    intro acc e d r h
    unfold greedyScan at h
    rcases hrs : rsAfterRemoval G c with _ | r1
    · rw [hrs] at h
      rcases ih h with h1 | h1
      · exact Or.inl (List.mem_cons_of_mem c h1)
      · exact Or.inr h1
    · rw [hrs] at h
      cases acc with
      | none =>
        rcases ih h with h1 | ⟨d0, r0, h1⟩
        · exact Or.inl (List.mem_cons_of_mem c h1)
        · rw [Option.some_inj, Prod.mk.injEq] at h1
          exact Or.inl (h1.1 ▸ List.mem_cons_self c rest)
      | some bmn =>
        rcases bmn with ⟨b, m, nr⟩
        dsimp only at h
        by_cases hlt : m < r1 - base
        · rw [if_pos hlt] at h
          rcases ih h with h1 | ⟨d0, r0, h1⟩
          · exact Or.inl (List.mem_cons_of_mem c h1)
          · rw [Option.some_inj, Prod.mk.injEq] at h1
            exact Or.inl (h1.1 ▸ List.mem_cons_self c rest)
        · rw [if_neg hlt] at h
          rcases ih h with h1 | ⟨d0, r0, h1⟩
          · exact Or.inl (List.mem_cons_of_mem c h1)
          · rw [Option.some_inj, Prod.mk.injEq] at h1
            exact Or.inr ⟨m, nr, by rw [h1.1]⟩

theorem greedyStep_inv {G0 : Graph} {s : GreedySt} (hi : GreedyInv G0 s) :
    GreedyInv G0 (greedyStep s) := by
  unfold greedyStep
  by_cases hstop : s.stopped = true
  · rw [if_pos hstop]
    exact hi
  rw [if_neg hstop]
  by_cases hempty : s.G.edges.length = 0
  · rw [if_pos hempty]
    exact ⟨hi.nodes, hi.edges, hi.len, hi.nodup, hi.sub⟩
  rw [if_neg hempty]
  rcases hscan : greedyScan s.G s.initial_rs s.G.edges none with _ | out
  · exact ⟨hi.nodes, hi.edges, hi.len, hi.nodup, hi.sub⟩
  rcases out with ⟨bestE, maxD, nextRs⟩
  dsimp only
  have hbest : bestE ∈ s.G.edges := by
    rcases greedyScan_mem hscan with h1 | ⟨d0, r0, h1⟩
    · exact h1
    · cases h1
  have hbestG0 : bestE ∈ G0.edges := ((hi.edges bestE).mp hbest).1
  have hbestNew : ∀ t ∈ s.targets, ¬ sameEdge bestE t := ((hi.edges bestE).mp hbest).2
  refine ⟨hi.nodes, ?_, ?_, ?_, ?_⟩
  · intro e
    rw [mem_removeEdge, hi.edges e]
    constructor
    · rintro ⟨⟨he0, hall⟩, hnb⟩
      refine ⟨he0, ?_⟩
      intro t ht
      rcases List.mem_append.mp ht with ht1 | ht1
      · exact hall t ht1
      · rcases List.mem_singleton.mp ht1 with rfl
        intro hcon
        apply hnb
        rcases hcon with ⟨h1, h2⟩ | ⟨h1, h2⟩
        · exact Or.inl ⟨h1, h2⟩
        · exact Or.inr ⟨h1, h2⟩
    · rintro ⟨he0, hall⟩
      refine ⟨⟨he0, fun t ht => hall t (List.mem_append.mpr (Or.inl ht))⟩, ?_⟩
      intro hcon
      have hb := hall bestE (List.mem_append.mpr (Or.inr (List.mem_singleton.mpr rfl)))
      apply hb
      rcases hcon with ⟨h1, h2⟩ | ⟨h1, h2⟩
      · exact Or.inl ⟨h1, h2⟩
      · exact Or.inr ⟨h1, h2⟩
  · simp [hi.len]
  · rw [List.pairwise_append]
    refine ⟨hi.nodup, List.pairwise_singleton _ _, ?_⟩
    intro a ha b hb
    rcases List.mem_singleton.mp hb with rfl
    intro hcon
    exact hbestNew a ha (sameEdge_symm hcon)
  · intro t ht
    rcases List.mem_append.mp ht with ht1 | ht1
    · exact hi.sub t ht1
    · rcases List.mem_singleton.mp ht1 with rfl
      exact hbestG0

theorem greedyStep_iterate_inv {G0 : Graph} {s : GreedySt} (hi : GreedyInv G0 s)
    (n : ℕ) : GreedyInv G0 (greedyStep^[n] s) := by
  induction n with
  | zero => exact hi
  | succ n ih =>
    rw [Function.iterate_succ_apply']
    exact greedyStep_inv ih

theorem greedyStep_targets_le (s : GreedySt) :
    (greedyStep s).targets.length ≤ s.targets.length + 1 := by
  unfold greedyStep
  by_cases hstop : s.stopped = true
  · rw [if_pos hstop]
    omega
  rw [if_neg hstop]
  by_cases hempty : s.G.edges.length = 0
  · rw [if_pos hempty]
    dsimp only
    omega
  rw [if_neg hempty]
  rcases hscan : greedyScan s.G s.initial_rs s.G.edges none with _ | out
  · dsimp only
    omega
  rcases out with ⟨bestE, maxD, nextRs⟩
  dsimp only
  rw [List.length_append, List.length_singleton]

theorem greedyStep_iterate_targets_le (s : GreedySt) (n : ℕ) :
    (greedyStep^[n] s).targets.length ≤ s.targets.length + n := by
  induction n with
  | zero => exact Nat.le_refl _
  | succ n ih =>
    rw [Function.iterate_succ_apply']
    calc (greedyStep (greedyStep^[n] s)).targets.length
        ≤ (greedyStep^[n] s).targets.length + 1 := greedyStep_targets_le _
      _ ≤ s.targets.length + n + 1 := by omega

/-! ### Shape of the greedy search under a connected input -/

/-- The iteration count of the greedy loop:
`num_targets` or `min(num_targets, int(budget))`. -/
def greedy_iterations (num_targets : ℕ) (budget : Option ℚ) : ℤ :=
  match budget with
  | none => (num_targets : ℤ)
  | some b => min (num_targets : ℤ) (pyInt b)

theorem find_optimal_targets_greedy_eq {G : Graph} {num_targets : ℕ}
    {budget : Option ℚ} (h : is_connected G = true) :
    find_optimal_targets_greedy G num_targets budget = Except.ok
      ((fun sf => GreedyOut.mk sf.targets sf.deltas sf.G)
        (greedyStep^[(greedy_iterations num_targets budget).toNat]
          ⟨G, rsValue G, [], [], false⟩)) := by
  unfold find_optimal_targets_greedy greedy_iterations
  rw [h, if_neg (by simp), calculate_Rs_eq_rsValue h]

theorem greedyResult_eq {G : Graph} {num_targets : ℕ} {budget : Option ℚ}
    (h : is_connected G = true) :
    greedyResult G num_targets budget =
      (fun sf => GreedyOut.mk sf.targets sf.deltas sf.G)
        (greedyStep^[(greedy_iterations num_targets budget).toNat]
          ⟨G, rsValue G, [], [], false⟩) := by
  unfold greedyResult
  rw [find_optimal_targets_greedy_eq h]

/-! ### Arithmetic facts -/

/-- Python `int()` truncation agrees with the floor on non-negative inputs. -/
theorem pyInt_eq_floor {q : ℚ} (h : 0 ≤ q) : pyInt q = ⌊q⌋ := by
  unfold pyInt
  rw [Rat.floor_def]
  exact Int.tdiv_eq_ediv (Rat.num_nonneg.mpr h) (Int.ofNat_nonneg _)

theorem omegaSpec_nonneg (G : Graph) (e : ℕ × ℕ) : 0 ≤ omegaSpec G e :=
  le_max_left _ _

/-! ### Refinement: `calculate_Rs` against the specification formula -/

theorem edgeResistances_eq (G : Graph) :
    edgeResistances G (pinv (laplacian G)) =
      G.edges.map (fun e => (e, omegaSpec G e)) := rfl

theorem capr_none_eq {G : Graph} (h : is_connected G = true) :
    calculate_all_pairs_effective_resistance G none =
      Except.ok (G.edges.map (fun e => (e, omegaSpec G e))) := by
  unfold calculate_all_pairs_effective_resistance calculate_laplacian_pseudoinverse
  rw [h, if_neg (by simp)]
  rfl

theorem cspw_lookup {G : Graph} (hn : G.nodes.length ≠ 0) (hE : G.edges.length ≠ 0) :
    ∀ e ∈ G.edges,
      List.lookup e (calculate_structural_penalty_weights G) = some (wSpec G e) := by
  intro e he
  unfold calculate_structural_penalty_weights wSpec
  rw [if_neg (by push_neg; exact ⟨hn, hE⟩)]
  by_cases hd : meanDegree G = 0
  · rw [if_pos hd, if_pos hd]
    exact lookup_map_self (fun _ => 1) _ e he
  · have hcast : (G.nodes.length : ℚ) ≠ 0 := Nat.cast_ne_zero.mpr hn
    have hdenom : 2 * (G.nodes.length : ℚ) * meanDegree G ≠ 0 := by
      intro hcon
      rcases mul_eq_zero.mp hcon with hcon1 | hcon1
      · rcases mul_eq_zero.mp hcon1 with hcon2 | hcon2
        · norm_num at hcon2
        · exact hcast hcon2
      · exact hd hcon1
    rw [if_neg hd, if_neg hdenom, if_neg hd]
    exact lookup_map_self
      (fun e => 1 - ((|(degree G e.1 : ℚ) - meanDegree G| + |(degree G e.2 : ℚ) - meanDegree G|) /
        (2 * (G.nodes.length : ℚ) * meanDegree G))) _ e he

theorem rs_foldl_eq (G : Graph) (T : ℝ) (probs : List ((ℕ × ℕ) × ℝ))
    (ws : List ((ℕ × ℕ) × ℚ)) :
    ∀ (l : List (ℕ × ℕ)) (a : ℝ),
      (∀ e ∈ l, List.lookup e probs = some (omegaSpec G e / T)) →
      (∀ e ∈ l, List.lookup e ws = some (wSpec G e)) →
      (∀ e ∈ l, 0 ≤ omegaSpec G e / T) →
      l.foldl (fun acc e =>
        match List.lookup e probs, List.lookup e ws with
        | some p, some w => if p > 0 then acc + p * Real.log (1 / p) * (w : ℝ) else acc
        | _, _ => acc) a
      = a + (l.map fun e =>
          let p := omegaSpec G e / T
          if p = 0 then 0 else p * Real.log (1 / p) * ((wSpec G e : ℚ) : ℝ)).sum := by
  intro l
  induction l with
  | nil =>
    intro a _ _ _
    simp
  | cons e rest ih =>
    intro a hp hw hnn
    have hpe := hp e (List.mem_cons_self e rest)
    have hwe := hw e (List.mem_cons_self e rest)
    have hnne := hnn e (List.mem_cons_self e rest)
    rw [List.foldl_cons, List.map_cons, List.sum_cons]
    have hstep : (match List.lookup e probs, List.lookup e ws with
        | some p, some w => if p > 0 then a + p * Real.log (1 / p) * (w : ℝ) else a
        | _, _ => a)
        = a + (let p := omegaSpec G e / T
            if p = 0 then 0 else p * Real.log (1 / p) * ((wSpec G e : ℚ) : ℝ)) := by
      rw [hpe, hwe]
      dsimp only
      by_cases hzero : omegaSpec G e / T = 0
      · rw [if_pos hzero, if_neg (by rw [hzero]; exact lt_irrefl 0)]
        rw [add_zero]
      · rw [if_neg hzero, if_pos (lt_of_le_of_ne hnne (Ne.symm hzero))]
    rw [hstep, ih _ (fun f hf => hp f (List.mem_cons_of_mem e hf))
      (fun f hf => hw f (List.mem_cons_of_mem e hf))
      (fun f hf => hnn f (List.mem_cons_of_mem e hf))]
    ring

/-- The source computation of Rs coincides on connected graphs with the
formula stated in the specification. -/
theorem rs_refinement {G : Graph} (h : is_connected G = true) :
    calculate_Rs G = Except.ok (rsSpec G) := by
  unfold calculate_Rs rsSpec
  rw [h, if_neg (by simp)]
  by_cases hlen : G.edges.length = 0
  · rw [if_pos hlen, if_pos hlen]
  rw [if_neg hlen, if_neg hlen, capr_none_eq h]
  dsimp only
  have hmapsnd : ((G.edges.map (fun e => (e, omegaSpec G e))).map Prod.snd) =
      G.edges.map (omegaSpec G) := by
    rw [List.map_map]
    rfl
  rw [hmapsnd]
  by_cases hT : (G.edges.map (omegaSpec G)).sum = 0
  · rw [if_pos hT, if_pos hT]
  rw [if_neg hT, if_neg hT]
  have hTnn : 0 ≤ (G.edges.map (omegaSpec G)).sum := by
    apply List.sum_nonneg
    intro z hz
    rcases List.mem_map.mp hz with ⟨e, _, rfl⟩
    exact omegaSpec_nonneg G e
  have hTpos : 0 < (G.edges.map (omegaSpec G)).sum := lt_of_le_of_ne hTnn (Ne.symm hT)
  have hprobs : ((G.edges.map (fun e => (e, omegaSpec G e))).map
        (fun p => (p.1, p.2 / (G.edges.map (omegaSpec G)).sum))) =
      G.edges.map (fun e => (e, omegaSpec G e / (G.edges.map (omegaSpec G)).sum)) := by
    rw [List.map_map]
    rfl
  have hnodes : G.nodes.length ≠ 0 := by
    intro hcon
    unfold is_connected at h
    rcases hnil : G.nodes with _ | ⟨w, rest⟩
    · rw [hnil] at h
      cases h
    · rw [hnil] at hcon
      cases hcon
  refine congrArg Except.ok ?_
  rw [hprobs]
  rw [rs_foldl_eq G ((G.edges.map (omegaSpec G)).sum) _ _ G.edges 0 ?_ ?_ ?_]
  · rw [zero_add]
  · intro e he
    exact lookup_map_self (fun e => omegaSpec G e / (G.edges.map (omegaSpec G)).sum) _ e he
  · intro e he
    exact cspw_lookup hnodes hlen e he
  · intro e he
    exact div_nonneg (omegaSpec_nonneg G e) (le_of_lt hTpos)

/-! ### Further helper lemmas for the claims -/

theorem rsSpec_single {G : Graph} {e : ℕ × ℕ} (he : G.edges = [e]) : rsSpec G = 0 := by
  unfold rsSpec
  rw [he]
  rw [if_neg (by simp)]
  dsimp only
  by_cases hT : ([e].map (omegaSpec G)).sum = 0
  · rw [if_pos hT]
  · rw [if_neg hT]
    have hTe : ([e].map (omegaSpec G)).sum = omegaSpec G e := by simp
    rw [hTe] at hT ⊢
    rw [List.map_singleton, List.sum_singleton, div_self hT, if_neg one_ne_zero]
    rw [one_div_one, Real.log_one]
    ring

theorem meanDegree_nonneg (G : Graph) : 0 ≤ meanDegree G :=
  div_nonneg (Nat.cast_nonneg _) (Nat.cast_nonneg _)

theorem cspw_le_one (G : Graph) :
    ∀ p ∈ calculate_structural_penalty_weights G, p.2 ≤ 1 := by
  intro p hp
  unfold calculate_structural_penalty_weights at hp
  by_cases h1 : G.nodes.length = 0 ∨ G.edges.length = 0
  · rw [if_pos h1] at hp
    cases hp
  rw [if_neg h1] at hp
  by_cases h2 : meanDegree G = 0
  · rw [if_pos h2] at hp
    rcases List.mem_map.mp hp with ⟨e, _, rfl⟩
    exact le_refl 1
  rw [if_neg h2] at hp
  by_cases h3 : 2 * (G.nodes.length : ℚ) * meanDegree G = 0
  · rw [if_pos h3] at hp
    rcases List.mem_map.mp hp with ⟨e, _, rfl⟩
    exact le_refl 1
  rw [if_neg h3] at hp
  rcases List.mem_map.mp hp with ⟨e, _, rfl⟩
  have hd : 0 < meanDegree G := lt_of_le_of_ne (meanDegree_nonneg G) (Ne.symm h2)
  have hNpos : 0 < (G.nodes.length : ℚ) := by
    rcases Nat.eq_zero_or_pos G.nodes.length with hz | hpos
    · exact absurd (Or.inl hz) h1
    · exact_mod_cast hpos
  have hdenom : 0 < 2 * (G.nodes.length : ℚ) * meanDegree G := by positivity
  have hnum : 0 ≤ |(degree G e.1 : ℚ) - meanDegree G| + |(degree G e.2 : ℚ) - meanDegree G| :=
    add_nonneg (abs_nonneg _) (abs_nonneg _)
  have hq : 0 ≤ (|(degree G e.1 : ℚ) - meanDegree G| + |(degree G e.2 : ℚ) - meanDegree G|) /
      (2 * (G.nodes.length : ℚ) * meanDegree G) := div_nonneg hnum (le_of_lt hdenom)
  dsimp only
  linarith

theorem matEntry_zero {n : ℕ} (a b : ℕ) :
    matEntry (0 : Matrix (Fin n) (Fin n) ℝ) a b = 0 := by
  unfold matEntry
  split
  · split
    · exact Matrix.zero_apply _ _
    · rfl
  · rfl

theorem regoMem_caller (draws : ℕ → ℕ × ℕ) :
    ∀ (n : ℕ) (m : RegoMem), ((regoMemStep draws)^[n] m).caller = m.caller := by
  intro n
  induction n with
  | zero => intro m; rfl
  | succ n ih =>
    intro m
    rw [Function.iterate_succ_apply']
    rw [regoMemStep, ih m]

theorem greedyMem_caller :
    ∀ (n : ℕ) (m : GreedyMem), (greedyMemStep^[n] m).caller = m.caller := by
  intro n
  induction n with
  | zero => intro m; rfl
  | succ n ih =>
    intro m
    rw [Function.iterate_succ_apply']
    rw [greedyMemStep, ih m]

theorem rego_optimizer_mem_caller (G : Graph) (draws : ℕ → ℕ × ℕ) (n_iter : ℕ) :
    (rego_optimizer_mem G draws n_iter).1 = G := by
  unfold rego_optimizer_mem
  by_cases h1 : is_connected G = false
  · rw [if_pos h1]
  rw [if_neg h1]
  rcases hrs : calculate_Rs G with msg | r
  · rfl
  dsimp only
  by_cases hlen : G.edges.length < 2
  · rw [if_pos hlen]
  · rw [if_neg hlen]
    exact regoMem_caller draws n_iter _

theorem find_optimal_targets_greedy_mem_caller (G : Graph) (num_targets : ℕ)
    (budget : Option ℚ) : (find_optimal_targets_greedy_mem G num_targets budget).1 = G := by
  unfold find_optimal_targets_greedy_mem
  by_cases h1 : is_connected G = false
  · rw [if_pos h1]
  rw [if_neg h1]
  rcases hrs : calculate_Rs G with msg | r
  · rfl
  dsimp only
  exact greedyMem_caller _ _

/-! ### Concrete graphs for witnesses and counterexamples -/

/-- The 4-cycle of the end-to-end scenario of the specification. -/
def cycle4 : Graph := ⟨[0, 1, 2, 3], [(0, 1), (1, 2), (2, 3), (3, 0)]⟩

/-- A disconnected graph: two disjoint edges. -/
def twoPairs : Graph := ⟨[0, 1, 2, 3], [(0, 1), (2, 3)]⟩

/-- The connected graph with exactly one edge. -/
def single2 : Graph := ⟨[0, 1], [(0, 1)]⟩

/-- A constant raw-draw stream. -/
def drawsZero : ℕ → ℕ × ℕ := fun _ => (0, 0)

/-- The mean degree of the 4-cycle. -/
theorem meanDegree_cycle4 : meanDegree cycle4 = 2 := by
  have h8 : ((cycle4.nodes.map (degree cycle4)).sum : ℚ) = 8 := by
    have h : (cycle4.nodes.map (degree cycle4)).sum = 8 := by decide
    rw [h]
    norm_num
  unfold meanDegree
  rw [h8]
  norm_num [cycle4]

/-- The invariant holds at the initial greedy state. -/
theorem greedy_initial_inv (G : Graph) : GreedyInv G ⟨G, rsValue G, [], [], false⟩ := by
  refine ⟨rfl, ?_, rfl, List.Pairwise.nil, ?_⟩
  · intro e
    simp
  · intro t ht
    cases ht

/-! ### The claims -/

/-- C1 (counterexample): on a disconnected graph with a supplied precomputed
pseudoinverse, `calculate_all_pairs_effective_resistance` does not raise: it
returns a resistance mapping computed from the supplied matrix, contradicting
the claim that all three operations raise `DisconnectedGraphError` in every
case. -/
theorem C1_counterexample :
    is_connected twoPairs = false ∧
    calculate_all_pairs_effective_resistance twoPairs
        (some (0 : Matrix (Fin twoPairs.nodes.length) (Fin twoPairs.nodes.length) ℝ)) =
      Except.ok [((0, 1), 0), ((2, 3), 0)] := by
  constructor
  · decide
  · unfold calculate_all_pairs_effective_resistance edgeResistances
    simp only [twoPairs, matEntry_zero, List.map_cons, List.map_nil]
    norm_num

/-- C1 (amended): on a disconnected graph, `rs` and `laplacianPseudoinverse`
always raise, and `effectiveResistance` raises when no pseudoinverse is
supplied; when a pseudoinverse is supplied it performs no connectivity check
and returns the resistances computed from the supplied matrix. -/
theorem C1_disconnected_errors (G : Graph) (h : is_connected G = false) :
    calculate_Rs G = Except.error "Rs calculation requires a connected graph." ∧
    calculate_laplacian_pseudoinverse G =
      Except.error "Graph must be connected to calculate its Laplacian pseudoinverse." ∧
    calculate_all_pairs_effective_resistance G none =
      Except.error "Graph must be connected to calculate its Laplacian pseudoinverse." ∧
    (∀ M, calculate_all_pairs_effective_resistance G (some M) =
      Except.ok (edgeResistances G M)) := by
  have hclp : calculate_laplacian_pseudoinverse G =
      Except.error "Graph must be connected to calculate its Laplacian pseudoinverse." := by
    unfold calculate_laplacian_pseudoinverse
    rw [if_pos h]
  refine ⟨?_, hclp, ?_, ?_⟩
  · unfold calculate_Rs
    rw [if_pos h]
  · unfold calculate_all_pairs_effective_resistance
    rw [hclp]
  · intro M
    rfl

/-- Witness for C1 (amended) at a concrete disconnected graph. -/
theorem C1_witness :
    calculate_Rs twoPairs = Except.error "Rs calculation requires a connected graph." ∧
    calculate_laplacian_pseudoinverse twoPairs =
      Except.error "Graph must be connected to calculate its Laplacian pseudoinverse." := by
  have h := C1_disconnected_errors twoPairs (by decide)
  exact ⟨h.1, h.2.1⟩

/-- C2: on a connected graph, `calculate_Rs` returns exactly the value stated
by the specification: `0.0` with no edges; otherwise with clamped
`Ω_uv = L⁺_uu + L⁺_vv − 2·L⁺_uv` and `T = Σ Ω_uv`, `0.0` when `T = 0`, and
otherwise `Σ p_uv·ln(1/p_uv)·w_uv` with `p_uv = Ω_uv/T`, a `p_uv = 0` term
contributing exactly `0` (so `ln` is never applied to `0`). -/
theorem C2_rs_formula (G : Graph) (h : is_connected G = true) :
    calculate_Rs G = Except.ok (rsSpec G) :=
  rs_refinement h

/-- Witness for C2 at the 4-cycle. -/
theorem C2_witness :
    is_connected cycle4 = true ∧ calculate_Rs cycle4 = Except.ok (rsSpec cycle4) :=
  ⟨by decide, C2_rs_formula cycle4 (by decide)⟩

/-- C10: for every connected graph with exactly one edge, Rs is `0` (the only
edge has probability `1` and `ln(1/1) = 0`, independently of the structural
weight). -/
theorem C10_single_edge_rs_zero (G : Graph) (hconn : is_connected G = true)
    (hone : G.edges.length = 1) : calculate_Rs G = Except.ok (0 : ℝ) := by
  obtain ⟨e, he⟩ := List.length_eq_one.mp hone
  rw [rs_refinement hconn, rsSpec_single he]

/-- Witness for C10 at the two-node single-edge graph. -/
theorem C10_witness : calculate_Rs single2 = Except.ok (0 : ℝ) :=
  C10_single_edge_rs_zero single2 (by decide) (by decide)

/-- C8: `structuralPenaltyWeights` returns the empty mapping when the graph
has no nodes or no edges; in the guarded degenerate branch `d̄ = 0` it maps
every edge to `1.0`; otherwise it maps each edge `(u,v)` to
`1 − (|d_u−d̄| + |d_v−d̄|)/(2·N·d̄)`; and every returned weight is `≤ 1`. -/
theorem C8_structural_weights (G : Graph) :
    ((G.nodes.length = 0 ∨ G.edges.length = 0) →
      calculate_structural_penalty_weights G = []) ∧
    (G.nodes.length ≠ 0 → G.edges.length ≠ 0 → meanDegree G = 0 →
      calculate_structural_penalty_weights G = G.edges.map (fun e => (e, 1))) ∧
    (G.nodes.length ≠ 0 → G.edges.length ≠ 0 → meanDegree G ≠ 0 →
      calculate_structural_penalty_weights G = G.edges.map (fun e =>
        (e, 1 - ((|(degree G e.1 : ℚ) - meanDegree G| + |(degree G e.2 : ℚ) - meanDegree G|) /
          (2 * (G.nodes.length : ℚ) * meanDegree G))))) ∧
    (∀ p ∈ calculate_structural_penalty_weights G, p.2 ≤ 1) := by
  refine ⟨?_, ?_, ?_, cspw_le_one G⟩
  · intro h
    unfold calculate_structural_penalty_weights
    rw [if_pos h]
  · intro hn hE hd
    unfold calculate_structural_penalty_weights
    rw [if_neg (by push_neg; exact ⟨hn, hE⟩), if_pos hd]
  · intro hn hE hd
    have hcast : (G.nodes.length : ℚ) ≠ 0 := Nat.cast_ne_zero.mpr hn
    have hdenom : 2 * (G.nodes.length : ℚ) * meanDegree G ≠ 0 := by
      intro hcon
      rcases mul_eq_zero.mp hcon with hcon1 | hcon1
      · rcases mul_eq_zero.mp hcon1 with hcon2 | hcon2
        · norm_num at hcon2
        · exact hcast hcon2
      · exact hd hcon1
    unfold calculate_structural_penalty_weights
    rw [if_neg (by push_neg; exact ⟨hn, hE⟩), if_neg hd, if_neg hdenom]

/-- Witness for C8 at the 4-cycle (regular, `d̄ = 2`). -/
theorem C8_witness :
    calculate_structural_penalty_weights cycle4 = cycle4.edges.map (fun e =>
      (e, 1 - ((|(degree cycle4 e.1 : ℚ) - meanDegree cycle4| +
          |(degree cycle4 e.2 : ℚ) - meanDegree cycle4|) /
        (2 * (cycle4.nodes.length : ℚ) * meanDegree cycle4)))) :=
  (C8_structural_weights cycle4).2.2.1 (by decide) (by decide)
    (by rw [meanDegree_cycle4]; norm_num)

/-- C4: on a connected input, the returned `rs_history` is strictly increasing
(hence monotonically non-decreasing), its first element is the Rs value of
the input graph, and it has exactly one entry per accepted swap plus the
initial seed. -/
theorem C4_rego_history (G : Graph) (draws : ℕ → ℕ × ℕ) (n_iter : ℕ)
    (hconn : is_connected G = true) :
    List.Chain' (· < ·) (regoResult G draws n_iter).hist ∧
    (regoResult G draws n_iter).hist.head? = some (rsValue G) ∧
    (regoResult G draws n_iter).hist.length = (regoResult G draws n_iter).accepted + 1 := by
  rw [regoResult_eq hconn]
  by_cases hlen : G.edges.length < 2
  · rw [if_pos hlen]
    exact ⟨List.chain'_singleton _, rfl, rfl⟩
  · rw [if_neg hlen]
    have h0 : RegoHistInv (rsValue G) ⟨G, rsValue G, [rsValue G], G.edges, 0, 0⟩ :=
      ⟨List.chain'_singleton _, rfl, by simp, rfl⟩
    have hfin := regoStep_hist_iterate draws h0 n_iter
    exact ⟨hfin.chain, hfin.head, hfin.len⟩

/-- Witness for C4 at the 4-cycle with a constant draw stream. -/
theorem C4_witness :
    List.Chain' (· < ·) (regoResult cycle4 drawsZero 5).hist ∧
    (regoResult cycle4 drawsZero 5).hist.head? = some (rsValue cycle4) ∧
    (regoResult cycle4 drawsZero 5).hist.length =
      (regoResult cycle4 drawsZero 5).accepted + 1 :=
  C4_rego_history cycle4 drawsZero 5 (by decide)

/-- C5: on a connected simple input graph, every node keeps its input degree
in the graph returned by `rego_optimizer`, for any iteration count and any
random stream; since the state after `k` iterations is the result of the
`k`-iteration run, this covers the working graph at every iteration. -/
theorem C5_rego_degree_preserved (G : Graph) (draws : ℕ → ℕ × ℕ) (n_iter : ℕ)
    (v : ℕ) (hWF : WF G) (hconn : is_connected G = true) :
    degree (regoResult G draws n_iter).G v = degree G v := by
  rw [regoResult_eq hconn]
  by_cases hlen : G.edges.length < 2
  · rw [if_pos hlen]
  · rw [if_neg hlen]
    have h0g : RegoGraphInv G ⟨G, rsValue G, [rsValue G], G.edges, 0, 0⟩ :=
      ⟨hWF, hconn, rfl, fun _ => rfl, fun _ he => he⟩
    have h0h : RegoHistInv (rsValue G) ⟨G, rsValue G, [rsValue G], G.edges, 0, 0⟩ :=
      ⟨List.chain'_singleton _, rfl, by simp, rfl⟩
    exact (regoStep_iterate_inv h0g h0h n_iter).1.deg v

/-- Witness for C5. -/
theorem C5_witness :
    degree (regoResult cycle4 drawsZero 5).G 0 = degree cycle4 0 :=
  C5_rego_degree_preserved cycle4 drawsZero 5 0 (by decide) (by decide)

/-- C6: on a connected simple input graph, the working graph of
`rego_optimizer` is connected at the end of every iteration (a swap producing
a disconnected graph is reverted within the iteration), and in particular the
returned optimized graph is connected; quantifying over every iteration count
covers the state at the end of each iteration. -/
theorem C6_rego_connected (G : Graph) (draws : ℕ → ℕ × ℕ) (n_iter : ℕ)
    (hWF : WF G) (hconn : is_connected G = true) :
    is_connected (regoResult G draws n_iter).G = true := by
  rw [regoResult_eq hconn]
  by_cases hlen : G.edges.length < 2
  · rw [if_pos hlen]
    exact hconn
  · rw [if_neg hlen]
    have h0g : RegoGraphInv G ⟨G, rsValue G, [rsValue G], G.edges, 0, 0⟩ :=
      ⟨hWF, hconn, rfl, fun _ => rfl, fun _ he => he⟩
    have h0h : RegoHistInv (rsValue G) ⟨G, rsValue G, [rsValue G], G.edges, 0, 0⟩ :=
      ⟨List.chain'_singleton _, rfl, by simp, rfl⟩
    exact (regoStep_iterate_inv h0g h0h n_iter).1.conn

/-- Witness for C6. -/
theorem C6_witness : is_connected (regoResult cycle4 drawsZero 5).G = true :=
  C6_rego_connected cycle4 drawsZero 5 (by decide) (by decide)

/-- C7: neither search mutates the caller's graph: in the embedding that
threads the caller's graph object through the call as an explicit state
component (mirroring `copy.deepcopy(G_initial)` and `G.copy()` in the
sources, after which every mutation targets the working copy), the caller's
component after either call equals the input graph exactly. -/
theorem C7_caller_graphs_unchanged (G : Graph) (draws : ℕ → ℕ × ℕ) (n_iter : ℕ)
    (num_targets : ℕ) (budget : Option ℚ) :
    (rego_optimizer_mem G draws n_iter).1 = G ∧
    (find_optimal_targets_greedy_mem G num_targets budget).1 = G :=
  ⟨rego_optimizer_mem_caller G draws n_iter,
   find_optimal_targets_greedy_mem_caller G num_targets budget⟩

/-- C9: on a connected input, the final greedy graph has exactly the input's
node list, its edge set is the input's edge set minus precisely the returned
targets (as unordered pairs), and `delta_rs_history` has the same length as
the target list. -/
theorem C9_greedy_final_graph (G : Graph) (num_targets : ℕ) (budget : Option ℚ)
    (hconn : is_connected G = true) :
    (greedyResult G num_targets budget).G.nodes = G.nodes ∧
    (∀ e, e ∈ (greedyResult G num_targets budget).G.edges ↔
      (e ∈ G.edges ∧ ∀ t ∈ (greedyResult G num_targets budget).targets, ¬ sameEdge e t)) ∧
    (greedyResult G num_targets budget).deltas.length =
      (greedyResult G num_targets budget).targets.length := by
  rw [greedyResult_eq hconn]
  have hfin := greedyStep_iterate_inv (greedy_initial_inv G)
    ((greedy_iterations num_targets budget).toNat)
  exact ⟨hfin.nodes, hfin.edges, hfin.len⟩

/-- Witness for C9. -/
theorem C9_witness :
    (greedyResult cycle4 1 none).G.nodes = cycle4.nodes ∧
    (greedyResult cycle4 1 none).deltas.length =
      (greedyResult cycle4 1 none).targets.length := by
  have h := C9_greedy_final_graph cycle4 1 none (by decide)
  exact ⟨h.1, h.2.2⟩

/-- C3 (counterexample): with a negative budget the claim's bound
`min(numTargets, floor(budget))` is negative while the returned target list is
empty, so "at most `min(numTargets, floor(budget))` targets" fails as
stated. -/
theorem C3_counterexample :
    (greedyResult single2 1 (some (-1))).targets = [] ∧
    ¬ (((greedyResult single2 1 (some (-1))).targets.length : ℤ) ≤
        min (1 : ℤ) ⌊(-1 : ℚ)⌋) := by
  have htargets : (greedyResult single2 1 (some (-1))).targets = [] := by
    rw [greedyResult_eq (by decide)]
    have hiter : (greedy_iterations 1 (some (-1 : ℚ))).toNat = 0 := by decide
    rw [hiter]
    rfl
  refine ⟨htargets, ?_⟩
  rw [htargets]
  have hfl : ⌊(-1 : ℚ)⌋ = -1 := by norm_num
  rw [hfl]
  norm_num

/-- C3 (amended): on a connected input, the greedy search returns at most
`numTargets` targets when no budget is given, at most
`min(numTargets, floor(budget))` when a non-negative budget is given (for a
non-negative budget Python's `int()` truncation equals the floor); every
returned target is an edge of the input graph, and no edge appears twice in
the target list (each target was present in the working graph — the input
minus the earlier targets — at the moment of its selection). -/
theorem C3_greedy_targets (G : Graph) (num_targets : ℕ) (budget : Option ℚ)
    (hconn : is_connected G = true) :
    (budget = none → (greedyResult G num_targets budget).targets.length ≤ num_targets) ∧
    (∀ q : ℚ, budget = some q → 0 ≤ q →
      ((greedyResult G num_targets budget).targets.length : ℤ) ≤
        min (num_targets : ℤ) ⌊q⌋) ∧
    (∀ t ∈ (greedyResult G num_targets budget).targets, t ∈ G.edges) ∧
    List.Pairwise (fun a b => ¬ sameEdge a b) (greedyResult G num_targets budget).targets := by
  rw [greedyResult_eq hconn]
  have hfin := greedyStep_iterate_inv (greedy_initial_inv G)
    ((greedy_iterations num_targets budget).toNat)
  have hlen := greedyStep_iterate_targets_le ⟨G, rsValue G, [], [], false⟩
    ((greedy_iterations num_targets budget).toNat)
  refine ⟨?_, ?_, hfin.sub, hfin.nodup⟩
  · intro hb
    subst hb
    have hfuel : (greedy_iterations num_targets none).toNat = num_targets := by
      unfold greedy_iterations
      simp
    rw [hfuel] at hlen
    simpa using hlen
  · intro q hb hq
    subst hb
    have hfloor : pyInt q = ⌊q⌋ := pyInt_eq_floor hq
    have hfnn : (0 : ℤ) ≤ ⌊q⌋ := Int.floor_nonneg.mpr hq
    have hfuel : greedy_iterations num_targets (some q) = min (num_targets : ℤ) ⌊q⌋ := by
      unfold greedy_iterations
      dsimp only
      rw [hfloor]
    have hginn : (0 : ℤ) ≤ greedy_iterations num_targets (some q) := by
      rw [hfuel]
      exact le_min (Int.ofNat_nonneg _) hfnn
    have htoNat : ((greedy_iterations num_targets (some q)).toNat : ℤ) =
        greedy_iterations num_targets (some q) := Int.toNat_of_nonneg hginn
    have hlen2 : ((greedyStep^[(greedy_iterations num_targets (some q)).toNat]
        (⟨G, rsValue G, [], [], false⟩ : GreedySt)).targets.length : ℤ) ≤
        ((greedy_iterations num_targets (some q)).toNat : ℤ) := by
      have hthis := hlen
      dsimp only at hthis
      simp only [List.length_nil, Nat.zero_add] at hthis
      exact_mod_cast hthis
    dsimp only
    rw [← hfuel]
    exact hlen2.trans (le_of_eq htoNat)

/-- Witness for C3 (amended). -/
theorem C3_witness :
    ((greedyResult cycle4 1 (some 2)).targets.length : ℤ) ≤ min (1 : ℤ) ⌊(2 : ℚ)⌋ ∧
    List.Pairwise (fun a b => ¬ sameEdge a b) (greedyResult cycle4 1 (some 2)).targets := by
  have h := C3_greedy_targets cycle4 1 (some 2) (by decide)
  exact ⟨h.2.1 2 rfl (by norm_num), h.2.2.2⟩

end RsModel

